import Mathlib

/-!
Verification of the A* search engine and puzzle definitions of the
ai-puzzle-suite-tui repository, against its natural-language specification.

Modelling conventions (shallow embedding of the Rust source):

* `u32` arithmetic is modelled on `Nat` with explicit wrapping/saturation:
  the frontier `f = g + h` sum (a plain `u32` addition in release mode) is
  taken modulo `2^32`, and `saturating_add(1)` is `Nat.min (g + 1) u32Max`.
* The `SearchState` trait becomes the structure `SearchProb`: a goal test, a
  heuristic and a successor function.  The engine discards the move half of
  each `(move, state)` successor pair, so successors are plain state lists.
* `HashMap<S, (Option<S>, u32)>` is modelled as an association list with an
  explicit boolean equality `beq` (mirroring the `Eq`/`Hash` instance the
  map is keyed on — important because `CustomGoalState` compares only its
  working configuration).  Insertion replaces the bound value in place.
* `BinaryHeap` is modelled as a list plus `popBest`, which removes an
  element that is maximal for the entry ordering `cmp` (first such element
  on exact ties; the Rust heap's choice among fully tied entries is
  unspecified, and no verified property depends on it).
* Wall-clock time is an oracle `elapsed : Nat → Nat` giving the elapsed
  seconds observed at the k-th loop iteration; the source's
  `Instant::now`/`Duration` bookkeeping is external nondeterminism.
* The unbounded `while` loop runs on explicit fuel and returns `none` when
  the fuel is exhausted, so every definition is total and executable.
-/

set_option autoImplicit false

def u32Mod : Nat := 4294967296

def u32Max : Nat := 4294967295

/-- The `SearchState` trait of `src/search/state.rs`, with the move type
erased (the engine never reads the move component of a successor pair). -/
structure SearchProb (S : Type) where
  isGoal : S → Bool
  heuristic : S → Nat
  successors : S → List S

/-- The `SearchReport` struct of `src/search/solver.rs`; `elapsed` is the
oracle's value at the iteration in which the report was produced. -/
structure SearchReport (S : Type) where
  path : List S
  expanded_nodes : Nat
  visited_states : Nat
  goal_found : Bool
  elapsed : Nat
  deriving DecidableEq

/-- The `FrontierEntry` struct of `src/search/solver.rs`. -/
structure FrontierEntry (S : Type) where
  state : S
  g_cost : Nat
  h_cost : Nat

/-- Method `f_cost`: a plain `u32` addition, hence reduced modulo `2^32`. -/
def fCost {S : Type} (e : FrontierEntry S) : Nat :=
  (e.g_cost + e.h_cost) % u32Mod

/-- The `Ord` instance on `FrontierEntry` (reversed, because `BinaryHeap`
is a max-heap): compare the other entry's `f`, then the other's `h`. -/
def entryCmp {S : Type} (a b : FrontierEntry S) : Ordering :=
  (compare (fCost b) (fCost a)).then (compare b.h_cost a.h_cost)

/-- Model of `BinaryHeap::pop` over a list representation: remove a
`cmp`-maximal element (the first such on exact ties). -/
def popBest {E : Type} (cmp : E → E → Ordering) : List E → Option (E × List E)
  | [] => none
  | e :: rest =>
    match popBest cmp rest with
    | none => some (e, [])
    | some (b, rest1) =>
      match cmp e b with
      | Ordering.lt => some (b, e :: rest1)
      | _ => some (e, rest)

/-- The `came_from` map: state to (predecessor, best known g). -/
@[reducible] def Came (S : Type) : Type := List (S × (Option S × Nat))

/-- Model of `HashMap::get`, keyed by the explicit equality `beq`. -/
def lookupB {S : Type} (beq : S → S → Bool) : Came S → S → Option (Option S × Nat)
  | [], _ => none
  | (k, v) :: rest, s => if beq k s then some v else lookupB beq rest s

/-- Model of `HashMap::insert`: replace the bound value, else append. -/
def insertB {S : Type} (beq : S → S → Bool) : Came S → S → (Option S × Nat) → Came S
  | [], s, v => [(s, v)]
  | (k, w) :: rest, s, v => if beq k s then (k, v) :: rest else (k, w) :: insertB beq rest s v

/-- The successor loop of `astar` (solver.rs lines 116-134): for each
successor, `tentative = g.saturating_add(1)`; if it improves on the
recorded best cost, record the new predecessor and push a frontier entry. -/
def relaxSuccs {S : Type} (beq : S → S → Bool) (P : SearchProb S) (cur : S) (g : Nat) :
    List S → List (FrontierEntry S) × Came S → List (FrontierEntry S) × Came S
  | [], oc => oc
  | s :: rest, oc =>
    let tentative := Nat.min (g + 1) u32Max
    let needs :=
      match lookupB beq oc.2 s with
      | some w => decide (tentative < w.2)
      | none => true
    if needs then
      relaxSuccs beq P cur g rest
        (⟨s, tentative, P.heuristic s⟩ :: oc.1, insertB beq oc.2 s (some cur, tentative))
    else
      relaxSuccs beq P cur g rest oc

/-- The `while let Some((Some(parent), _))` loop of `reconstruct_path`,
on fuel (the source loop terminates because parent g-costs strictly
decrease; the surrounding call always supplies sufficient fuel). -/
def reconSteps {S : Type} (beq : S → S → Bool) (came : Came S) : Nat → S → List S
  | 0, cur => [cur]
  | f + 1, cur =>
    match lookupB beq came cur with
    | some (some p, _) => cur :: reconSteps beq came f p
    | _ => [cur]

/-- `reconstruct_path` of solver.rs: follow predecessors, then reverse. -/
def reconstruct_path {S : Type} (beq : S → S → Bool) (came : Came S) (cur : S) : List S :=
  (reconSteps beq came came.length cur).reverse

/-- The main loop of `astar` (solver.rs lines 81-143), on fuel.  Each
iteration: pop, timeout check against the one-hour ceiling, staleness
check, goal check, then expansion. -/
def astarLoop {S : Type} (beq : S → S → Bool) (P : SearchProb S) (elapsed : Nat → Nat) :
    Nat → List (FrontierEntry S) → Came S → Nat → Nat → Option (SearchReport S)
  | 0, _, _, _, _ => none
  | fuel + 1, opn, came, expanded, k =>
    match popBest entryCmp opn with
    | none => some ⟨[], expanded, came.length, false, elapsed k⟩
    | some (entry, opn1) =>
      if 3600 ≤ elapsed k then
        some ⟨[], expanded, came.length, false, elapsed k⟩
      else
        let recorded := ((lookupB beq came entry.state).getD (none, u32Max)).2
        if recorded < entry.g_cost then
          astarLoop beq P elapsed fuel opn1 came expanded (k + 1)
        else if P.isGoal entry.state then
          some ⟨reconstruct_path beq came entry.state, expanded, came.length, true, elapsed k⟩
        else
          let oc := relaxSuccs beq P entry.state entry.g_cost (P.successors entry.state) (opn1, came)
          astarLoop beq P elapsed fuel oc.1 oc.2 (expanded + 1) (k + 1)

/-- `astar` of solver.rs: initialise the frontier and best-cost map with
the start state and run the main loop. -/
def astar {S : Type} (beq : S → S → Bool) (P : SearchProb S) (elapsed : Nat → Nat)
    (fuel : Nat) (start : S) : Option (SearchReport S) :=
  astarLoop beq P elapsed fuel [⟨start, 0, P.heuristic start⟩]
    (insertB beq [] start (none, 0)) 0 0

/-- Instrumented copy of `astarLoop` that additionally records the trace of
expansion events as `(state, g)` pairs; used only to reason about which
states were expanded (the source keeps no such trace). -/
def astarLoopE {S : Type} (beq : S → S → Bool) (P : SearchProb S) (elapsed : Nat → Nat) :
    Nat → List (FrontierEntry S) → Came S → List (S × Nat) → Nat → Nat →
    Option (SearchReport S × List (S × Nat))
  | 0, _, _, _, _, _ => none
  | fuel + 1, opn, came, trace, expanded, k =>
    match popBest entryCmp opn with
    | none => some (⟨[], expanded, came.length, false, elapsed k⟩, trace)
    | some (entry, opn1) =>
      if 3600 ≤ elapsed k then
        some (⟨[], expanded, came.length, false, elapsed k⟩, trace)
      else
        let recorded := ((lookupB beq came entry.state).getD (none, u32Max)).2
        if recorded < entry.g_cost then
          astarLoopE beq P elapsed fuel opn1 came trace expanded (k + 1)
        else if P.isGoal entry.state then
          some (⟨reconstruct_path beq came entry.state, expanded, came.length, true, elapsed k⟩, trace)
        else
          let oc := relaxSuccs beq P entry.state entry.g_cost (P.successors entry.state) (opn1, came)
          astarLoopE beq P elapsed fuel oc.1 oc.2 (trace ++ [(entry.state, entry.g_cost)]) (expanded + 1) (k + 1)

/-- Instrumented `astar`: same run, plus the expansion trace. -/
def astarE {S : Type} (beq : S → S → Bool) (P : SearchProb S) (elapsed : Nat → Nat)
    (fuel : Nat) (start : S) : Option (SearchReport S × List (S × Nat)) :=
  astarLoopE beq P elapsed fuel [⟨start, 0, P.heuristic start⟩]
    (insertB beq [] start (none, 0)) [] 0 0

/-! ### Ground truth: bounded reachability and a reference breadth-first search -/

/-- `ReachN P n s t`: `t` is reachable from `s` in exactly `n` successor steps. -/
def ReachN {S : Type} (P : SearchProb S) : Nat → S → S → Prop
  | 0, s, t => s = t
  | n + 1, s, t => ∃ u ∈ P.successors s, ReachN P n u t

/-- `GoalIn P n s`: some goal state is reachable from `s` in exactly `n` steps. -/
def GoalIn {S : Type} (P : SearchProb S) : Nat → S → Prop
  | 0, s => P.isGoal s = true
  | n + 1, s => ∃ u ∈ P.successors s, GoalIn P n u

instance instDecGoalIn {S : Type} (P : SearchProb S) : (n : Nat) → (s : S) → Decidable (GoalIn P n s)
  | 0, s => inferInstanceAs (Decidable (P.isGoal s = true))
  | n + 1, s =>
    haveI : ∀ u, Decidable (GoalIn P n u) := fun u => instDecGoalIn P n u
    inferInstanceAs (Decidable (∃ u ∈ P.successors s, GoalIn P n u))

/-- Reference brute-force breadth-first search: exhaustively test all move
sequences of depth `d = 0, 1, 2, ...` in turn and return the first depth
that reaches a goal (`none` if the fuel bound is hit first). -/
def bfsSearch {S : Type} (P : SearchProb S) (s : S) : Nat → Nat → Option Nat
  | _, 0 => none
  | d, fuel + 1 => if GoalIn P d s then some d else bfsSearch P s (d + 1) fuel

/-- Number of states (start included) on a true shortest goal path, as
computed by the reference breadth-first search. -/
def bfsPathStates {S : Type} (P : SearchProb S) (s : S) (fuel : Nat) : Option Nat :=
  (bfsSearch P s 0 fuel).map (· + 1)

/-- An admissible heuristic never overestimates the true remaining cost. -/
def Admissible {S : Type} (P : SearchProb S) : Prop :=
  ∀ s n, GoalIn P n s → P.heuristic s ≤ n

/-- Count of pairwise-distinct elements of a list, under `beq`. -/
def dedupB {S : Type} (beq : S → S → Bool) : List S → List S
  | [] => []
  | s :: rest => s :: dedupB beq (rest.filter (fun t => !beq s t))
termination_by l => l.length
decreasing_by
  simp only [List.length_cons]
  exact Nat.lt_succ_of_le (List.length_filter_le _ _)

/-! ### Missionaries and cannibals (`src/puzzles/missionaries_cannibals.rs`) -/

/-- The `MissionariesCannibalsState` struct; the `u8` counters are `Nat`s
(all values produced by the operations stay in `0..=3`). -/
structure MCState where
  left_m : Nat
  left_c : Nat
  boat_left : Bool
  deriving DecidableEq

/-- The five candidate boat moves. -/
structure BoatMove where
  missionaries : Nat
  cannibals : Nat

/-- `is_valid`: on each shore, missionaries present must not be outnumbered. -/
def mc_is_valid (s : MCState) : Bool :=
  if s.left_m > 0 && s.left_c > s.left_m then false
  else
    let right_m := 3 - s.left_m
    let right_c := 3 - s.left_c
    if right_m > 0 && right_c > right_m then false
    else true

/-- `apply_move`: move 1-2 occupants across, failing on capacity, on
availability, or on an invalid resulting configuration. -/
def mc_apply_move (s : MCState) (mv : BoatMove) : Option MCState :=
  if mv.missionaries + mv.cannibals == 0 || mv.missionaries + mv.cannibals > 2 then none
  else
    let moved :=
      if s.boat_left then
        if mv.missionaries > s.left_m || mv.cannibals > s.left_c then none
        else some { s with left_m := s.left_m - mv.missionaries,
                           left_c := s.left_c - mv.cannibals, boat_left := false }
      else
        let right_m := 3 - s.left_m
        let right_c := 3 - s.left_c
        if mv.missionaries > right_m || mv.cannibals > right_c then none
        else some { s with left_m := s.left_m + mv.missionaries,
                           left_c := s.left_c + mv.cannibals, boat_left := true }
    match moved with
    | none => none
    | some ns => if mc_is_valid ns then some ns else none

/-- `heuristic`: occupants still on the left shore. -/
def mc_heuristic (s : MCState) : Nat := s.left_m + s.left_c

/-- `is_goal`: everyone crossed, boat on the right. -/
def mc_is_goal (s : MCState) : Bool :=
  s.left_m == 0 && s.left_c == 0 && !s.boat_left

/-- The fixed candidate move list of `successors`. -/
def mcPossibleMoves : List BoatMove :=
  [⟨1, 0⟩, ⟨2, 0⟩, ⟨0, 1⟩, ⟨0, 2⟩, ⟨1, 1⟩]

/-- `successors`: the candidate moves that apply successfully. -/
def mc_successors (s : MCState) : List MCState :=
  mcPossibleMoves.filterMap (fun mv => mc_apply_move s mv)

def mcProb : SearchProb MCState := ⟨mc_is_goal, mc_heuristic, mc_successors⟩

def mcBeq (a b : MCState) : Bool := decide (a = b)

/-- The canonical start: 3 missionaries, 3 cannibals, boat on the left. -/
def mcStart : MCState := ⟨3, 3, true⟩

/-! ### Eight puzzle (`src/puzzles/eight_puzzle.rs`) -/

/-- The `GOAL` constant `[1,2,3,4,5,6,7,8,0]`. -/
def goalTiles : List Nat := [1, 2, 3, 4, 5, 6, 7, 8, 0]

/-- The `EightPuzzleState` struct; the `[u8; 9]` array is a `List Nat`. -/
structure EightPuzzleState where
  tiles : List Nat
  deriving DecidableEq

/-- `blank_index`: position of the 0 tile, defaulting to 8. -/
def blank_index (s : EightPuzzleState) : Nat :=
  (s.tiles.findIdx? (fun t => t == 0)).getD 8

/-- Model of slice `swap` for the in-range indices the puzzle produces. -/
def listSwap (l : List Nat) (i j : Nat) : List Nat :=
  match l.get? i, l.get? j with
  | some a, some b => (l.set i b).set j a
  | _, _ => l

/-- Inversion count of `is_solvable`: ordered pairs of non-blank tiles
where the earlier tile exceeds the later one. -/
def invPairs : List Nat → Nat
  | [] => 0
  | t :: rest => (rest.filter (fun u => t != 0 && u != 0 && decide (u < t))).length + invPairs rest

/-- `is_solvable`: even inversion parity. -/
def is_solvable (tiles : List Nat) : Bool := invPairs tiles % 2 == 0

/-- Loop body of `random_solvable`, over a stream of shuffle outcomes
(`shuffles i` is the tile arrangement the i-th in-place shuffle produces),
on fuel since the source loop retries unboundedly. -/
def randomSolvableAux (shuffles : Nat → List Nat) : Nat → Nat → Option EightPuzzleState
  | _, 0 => none
  | i, fuel + 1 =>
    let tiles := shuffles i
    if is_solvable tiles then some ⟨tiles⟩ else randomSolvableAux shuffles (i + 1) fuel

/-- `random_solvable`: shuffle until the arrangement passes `is_solvable`. -/
def random_solvable (shuffles : Nat → List Nat) (fuel : Nat) : Option EightPuzzleState :=
  randomSolvableAux shuffles 0 fuel

/-! ### Custom-goal wrapper and duplicated engine (`src/app.rs`) -/

/-- The `CustomGoalState` wrapper: a working configuration bundled with its
goal configuration. -/
structure CustomGoalState where
  state : EightPuzzleState
  goal : EightPuzzleState

/-- The hand-written `PartialEq` of `CustomGoalState`: it compares ONLY the
working configuration (`self.state == other.state`). -/
def cgsBEq (a b : CustomGoalState) : Bool := decide (a.state = b.state)

/-- The hand-written `Hash` of `CustomGoalState` feeds only the working
configuration to the hasher, modelled for an arbitrary state hasher. -/
def cgsHash (hasher : EightPuzzleState → Nat) (c : CustomGoalState) : Nat :=
  hasher c.state

/-- `is_goal` of the wrapper: working tiles equal the goal tiles. -/
def cgs_is_goal (c : CustomGoalState) : Bool := decide (c.state.tiles = c.goal.tiles)

def natAbsDiff (a b : Nat) : Nat := (a - b) + (b - a)

/-- `heuristic` of the wrapper: Manhattan distance to the custom goal,
with each tile's target looked up in the goal arrangement (defaulting to
its current index when absent). -/
def cgs_heuristic (c : CustomGoalState) : Nat :=
  ((c.state.tiles.enum.filter (fun p => p.2 != 0)).map (fun p =>
    let goal_idx := (c.goal.tiles.findIdx? (fun t => t == p.2)).getD p.1
    natAbsDiff (p.1 / 3) (goal_idx / 3) + natAbsDiff (p.1 % 3) (goal_idx % 3))).sum

/-- One blank swap of the wrapper's `successors` closure. -/
def cgsMove (c : CustomGoalState) (blank target : Nat) : CustomGoalState :=
  ⟨⟨listSwap c.state.tiles blank target⟩, c.goal⟩

/-- `successors` of the wrapper: up/down/left/right blank swaps in order. -/
def cgs_successors (c : CustomGoalState) : List CustomGoalState :=
  let blank := blank_index c.state
  let row := blank / 3
  let col := blank % 3
  (if row > 0 then [cgsMove c blank (blank - 3)] else []) ++
  (if row < 2 then [cgsMove c blank (blank + 3)] else []) ++
  (if col > 0 then [cgsMove c blank (blank - 1)] else []) ++
  (if col < 2 then [cgsMove c blank (blank + 1)] else [])

def cgsProb : SearchProb CustomGoalState := ⟨cgs_is_goal, cgs_heuristic, cgs_successors⟩

/-- `f_cost` of the duplicated `FrontierEntry` inside `astar_custom_goal`. -/
def fCostCG (e : FrontierEntry CustomGoalState) : Nat :=
  (e.g_cost + e.h_cost) % u32Mod

/-- The duplicated `Ord` instance inside `astar_custom_goal`. -/
def entryCmpCG (a b : FrontierEntry CustomGoalState) : Ordering :=
  (compare (fCostCG b) (fCostCG a)).then (compare b.h_cost a.h_cost)

/-- The duplicated successor loop of `astar_custom_goal` (app.rs 174-189). -/
def relaxCustom (cur : CustomGoalState) (g : Nat) :
    List CustomGoalState → List (FrontierEntry CustomGoalState) × Came CustomGoalState →
    List (FrontierEntry CustomGoalState) × Came CustomGoalState
  | [], oc => oc
  | s :: rest, oc =>
    let tentative := Nat.min (g + 1) u32Max
    let needs :=
      match lookupB cgsBEq oc.2 s with
      | some w => decide (tentative < w.2)
      | none => true
    if needs then
      relaxCustom cur g rest
        (⟨s, tentative, cgs_heuristic s⟩ :: oc.1, insertB cgsBEq oc.2 s (some cur, tentative))
    else
      relaxCustom cur g rest oc

/-- The loop of `reconstruct_path_custom`, on fuel. -/
def reconStepsCustom (came : Came CustomGoalState) : Nat → CustomGoalState → List CustomGoalState
  | 0, cur => [cur]
  | f + 1, cur =>
    match lookupB cgsBEq came cur with
    | some (some p, _) => cur :: reconStepsCustom came f p
    | _ => [cur]

/-- `reconstruct_path_custom` of app.rs. -/
def reconstruct_path_custom (came : Came CustomGoalState) (cur : CustomGoalState) :
    List CustomGoalState :=
  (reconStepsCustom came came.length cur).reverse

/-- The main loop of `astar_custom_goal` (app.rs 150-190).  Note: unlike
`astarLoop`, it has NO timeout branch — the source never checks the clock,
although it tracks `start_time` for the report's elapsed field (modelled by
the same iteration-indexed oracle). -/
def astarCustomLoop (elapsed : Nat → Nat) :
    Nat → List (FrontierEntry CustomGoalState) → Came CustomGoalState → Nat → Nat →
    Option (SearchReport CustomGoalState)
  | 0, _, _, _, _ => none
  | fuel + 1, opn, came, expanded, k =>
    match popBest entryCmpCG opn with
    | none => some ⟨[], expanded, came.length, false, elapsed k⟩
    | some (entry, opn1) =>
      let recorded := ((lookupB cgsBEq came entry.state).getD (none, u32Max)).2
      if recorded < entry.g_cost then
        astarCustomLoop elapsed fuel opn1 came expanded (k + 1)
      else if cgs_is_goal entry.state then
        some ⟨reconstruct_path_custom came entry.state, expanded, came.length, true, elapsed k⟩
      else
        let oc := relaxCustom entry.state entry.g_cost (cgs_successors entry.state) (opn1, came)
        astarCustomLoop elapsed fuel oc.1 oc.2 (expanded + 1) (k + 1)

/-- `astar_custom_goal` of app.rs. -/
def astar_custom_goal (elapsed : Nat → Nat) (fuel : Nat) (start : CustomGoalState) :
    Option (SearchReport CustomGoalState) :=
  astarCustomLoop elapsed fuel [⟨start, 0, cgs_heuristic start⟩]
    (insertB cgsBEq [] start (none, 0)) 0 0

/-! ### Tic-tac-toe variant (`src/puzzles/xor_tic_tac_toe.rs`) -/

inductive Player where
  | X : Player
  | O : Player
  deriving DecidableEq

def opponent : Player → Player
  | Player.X => Player.O
  | Player.O => Player.X

/-- The `XorTicTacToeState` struct: 9 optional cells plus whose turn. -/
structure XorTicTacToeState where
  cells : List (Option Player)
  to_move : Player
  deriving DecidableEq

/-- The `WINNING_LINES` constant, in source order. -/
def WINNING_LINES : List (Nat × Nat × Nat) :=
  [(0, 1, 2), (3, 4, 5), (6, 7, 8), (0, 3, 6), (1, 4, 7), (2, 5, 8), (0, 4, 8), (2, 4, 6)]

def cellAt (cells : List (Option Player)) (i : Nat) : Option Player :=
  cells.getD i none

/-- The scan of `winner`: return the owner of the first completely filled
line, in `WINNING_LINES` order. -/
def winnerAux (cells : List (Option Player)) : List (Nat × Nat × Nat) → Option Player
  | [] => none
  | (i, j, k) :: rest =>
    match cellAt cells i, cellAt cells j, cellAt cells k with
    | some a, some b, some c =>
      if a = b ∧ b = c then some a else winnerAux cells rest
    | _, _, _ => winnerAux cells rest

/-- `winner` of xor_tic_tac_toe.rs. -/
def winner (s : XorTicTacToeState) : Option Player := winnerAux s.cells WINNING_LINES

/-- `is_full`: every cell occupied. -/
def ttt_is_full (s : XorTicTacToeState) : Bool := s.cells.all (fun c => c.isSome)

/-- `is_goal`: `matches!(self.winner(), Some(Player::X))`. -/
def ttt_is_goal (s : XorTicTacToeState) : Bool := decide (winner s = some Player.X)

/-- `heuristic` of the tic-tac-toe state. -/
def ttt_heuristic (s : XorTicTacToeState) : Nat :=
  match winner s with
  | some Player.X => 0
  | some Player.O => 100
  | none =>
    match cellAt s.cells 4 with
    | some Player.X => 0
    | some Player.O => 4
    | none => 2

/-- `successors`: empty once won or full, else place the mover's mark in
each empty cell in index order, alternating the mover. -/
def ttt_successors (s : XorTicTacToeState) : List XorTicTacToeState :=
  if (winner s).isSome || ttt_is_full s then []
  else
    (List.range 9).filterMap (fun idx =>
      match cellAt s.cells idx with
      | none => some ⟨s.cells.set idx (some s.to_move), opponent s.to_move⟩
      | some _ => none)

def tttProb : SearchProb XorTicTacToeState := ⟨ttt_is_goal, ttt_heuristic, ttt_successors⟩

def tttBeq (a b : XorTicTacToeState) : Bool := decide (a = b)

/-- `lineFilled p cells line`: the three cells of `line` all hold `p`. -/
def lineFilled (p : Player) (cells : List (Option Player)) (line : Nat × Nat × Nat) : Bool :=
  decide (cellAt cells line.1 = some p) && decide (cellAt cells line.2.1 = some p) &&
    decide (cellAt cells line.2.2 = some p)

/-- Some winning line is completely filled with X marks. -/
def xLineFilled (cells : List (Option Player)) : Bool :=
  WINNING_LINES.any (lineFilled Player.X cells)

/-- Some winning line is completely filled with O marks. -/
def oLineFilled (cells : List (Option Player)) : Bool :=
  WINNING_LINES.any (lineFilled Player.O cells)

/-! ### Concrete instances used by individual claims -/

/-- A board whose first filled line (rows scan first) belongs to O while X
also owns a filled line. -/
def bBothLines : XorTicTacToeState :=
  ⟨[some Player.O, some Player.O, some Player.O, some Player.X, some Player.X, some Player.X,
    none, none, none], Player.X⟩

/-- A board in which only O has a completed line. -/
def bOwon : XorTicTacToeState :=
  ⟨[some Player.O, some Player.O, some Player.O, some Player.X, some Player.X, none,
    none, none, none], Player.X⟩

/-- A ten-state unit-cost graph on which the engine re-expands the chain
7 → 8 → 9 three times (its goal predicate is everywhere false, so any
heuristic — this one included — is vacuously admissible). -/
def reopenSuccs : Nat → List Nat
  | 0 => [1, 4, 6]
  | 1 => [2]
  | 2 => [3]
  | 3 => [7]
  | 4 => [5]
  | 5 => [7]
  | 6 => [7]
  | 7 => [8]
  | 8 => [9]
  | _ => []

def reopenH : Nat → Nat
  | 4 => 10
  | 5 => 9
  | 6 => 20
  | _ => 0

def reopenProb : SearchProb Nat := ⟨fun _ => false, reopenH, reopenSuccs⟩

def natBeq (a b : Nat) : Bool := a == b

/-- A two-state problem (start `false`, goal `true`) with the zero
heuristic, used to instantiate the engine's general guarantees. -/
def stepProb : SearchProb Bool :=
  ⟨fun b => b, fun _ => 0, fun b => if b then [] else [true]⟩

def boolBeq (a b : Bool) : Bool := a == b

/-- Concrete custom-goal states used as witnesses. -/
def cgsSolved : CustomGoalState := ⟨⟨goalTiles⟩, ⟨goalTiles⟩⟩

def cgsNear : CustomGoalState := ⟨⟨[1, 2, 3, 4, 5, 6, 7, 0, 8]⟩, ⟨goalTiles⟩⟩

def cgsOther : CustomGoalState := ⟨⟨goalTiles⟩, ⟨[1, 2, 3, 4, 5, 6, 7, 0, 8]⟩⟩

/-! ### Invariant vocabulary used by the engine proofs -/

/-- Keys of the best-cost map. -/
def cameKeys {S : Type} (c : Came S) : List S := c.map Prod.fst

/-- The lexicographic "at least as good" relation the frontier pop follows:
smaller wrapped `f`, ties broken by smaller `h`. -/
def keyLe {S : Type} (a b : FrontierEntry S) : Prop :=
  fCost a < fCost b ∨ (fCost a = fCost b ∧ a.h_cost ≤ b.h_cost)

/-- `BackChain P start l`: `l` lists the states of a path from `start`
backwards (first element last reached), each linked by one successor step. -/
def BackChain {S : Type} (P : SearchProb S) (start : S) : List S → Prop
  | [] => False
  | [s] => s = start
  | s :: p :: rest => s ∈ P.successors p ∧ BackChain P start (p :: rest)

/-- A fixed optimal goal path `v 0, v 1, ..., v n` from `start`. -/
structure OptPath {S : Type} (P : SearchProb S) (start : S) (n : Nat) (v : Nat → S) : Prop where
  base : v 0 = start
  step : ∀ i, i < n → v (i + 1) ∈ P.successors (v i)
  suffix : ∀ i, i ≤ n → GoalIn P (n - i) (v i)
  reach : ∀ i, i ≤ n → ReachN P i start (v i)

/-- Structural invariants of the engine loop state: the best-cost map
records realizable costs with well-formed predecessor links, and every
frontier entry is backed by a map binding at most its own cost. -/
structure AInv {S : Type} (beq : S → S → Bool) (P : SearchProb S) (start : S) (E : Nat)
    (opn : List (FrontierEntry S)) (came : Came S) : Prop where
  startBind : lookupB beq came start = some (none, 0)
  rootOnly : ∀ s g, lookupB beq came s = some (none, g) → s = start ∧ g = 0
  parentStep : ∀ s p g, lookupB beq came s = some (some p, g) →
    s ∈ P.successors p ∧ ∃ w, lookupB beq came p = some w ∧ w.2 < g
  cameReach : ∀ s w, lookupB beq came s = some w → ReachN P w.2 start s
  openReach : ∀ e, e ∈ opn → ReachN P e.g_cost start e.state
  openBind : ∀ e, e ∈ opn → ∃ w, lookupB beq came e.state = some w ∧ w.2 ≤ e.g_cost
  openH : ∀ e, e ∈ opn → e.h_cost = P.heuristic e.state
  openGle : ∀ e, e ∈ opn → e.g_cost ≤ E
  cameGlt : ∀ s w, lookupB beq came s = some w → w.2 < came.length

/-- Progress invariant along a fixed optimal path: every path vertex whose
recorded cost is optimal is either still on the frontier at that cost or
has been expanded at it, an expansion at optimal cost pins the next
vertex's recorded cost to its optimal value, and no goal is ever expanded. -/
structure OptInv {S : Type} (beq : S → S → Bool) (P : SearchProb S) (n : Nat) (v : Nat → S)
    (opn : List (FrontierEntry S)) (came : Came S) (trace : List (S × Nat)) : Prop where
  covered : ∀ j, j ≤ n → (lookupB beq came (v j)).map (fun w => w.2) = some j →
    (∃ e ∈ opn, e.state = v j ∧ e.g_cost = j) ∨ (v j, j) ∈ trace
  afterTrace : ∀ j, j < n → (v j, j) ∈ trace →
    (lookupB beq came (v (j + 1))).map (fun w => w.2) = some (j + 1)
  noGoalTrace : ∀ t ∈ trace, P.isGoal t.1 = false

/-! ## Theorems -/

/-! ### Basic facts about the frontier ordering -/

theorem then_gt_iff (a b : Ordering) :
    a.then b = Ordering.gt ↔ (a = Ordering.gt ∨ (a = Ordering.eq ∧ b = Ordering.gt)) := by
  cases a <;> simp [Ordering.then]

/-- Claim C8: the engine's frontier ordering pops smallest `f = g + h`
first and breaks `f`-ties by preferring the smaller `h`: an entry compares
as `gt` (higher priority in the max-heap) exactly when its `f` is smaller,
or its `f` is equal and its `h` is smaller. -/
theorem frontier_entry_order {S : Type} (a b : FrontierEntry S) :
    entryCmp a b = Ordering.gt ↔
      (fCost a < fCost b ∨ (fCost a = fCost b ∧ a.h_cost < b.h_cost)) := by
  unfold entryCmp
  rw [then_gt_iff]
  rw [Nat.compare_eq_gt, Nat.compare_eq_gt, Nat.compare_eq_eq]
  constructor
  · rintro (h | ⟨h1, h2⟩)
    · exact Or.inl h
    · exact Or.inr ⟨h1.symm, h2⟩
  · rintro (h | ⟨h1, h2⟩)
    · exact Or.inl h
    · exact Or.inr ⟨h1.symm, h2⟩

/-! ### Claim C3: equality and hashing of the custom-goal wrapper -/

/-- Claim C3 counterexample: two wrapper states with the same working
configuration but different goal configurations are nevertheless equal
under the wrapper's own equality, so equality does NOT require the goal
configurations to agree. -/
theorem cgs_eq_ignores_goal_cex :
    cgsBEq cgsSolved cgsOther = true ∧ cgsSolved.goal ≠ cgsOther.goal := by
  constructor
  · rfl
  · decide

/-- Claim C3 (amended): two wrapper states are equal if and only if their
working configurations are equal — the goal configuration is ignored — and
equal states hash identically (the hash also reads only the working
configuration). -/
theorem cgs_eq_hash_spec (a b : CustomGoalState) :
    (cgsBEq a b = true ↔ a.state = b.state) ∧
      (∀ hasher, cgsBEq a b = true → cgsHash hasher a = cgsHash hasher b) := by
  refine ⟨by simp [cgsBEq], fun hasher h => ?_⟩
  simp only [cgsBEq, decide_eq_true_eq] at h
  simp [cgsHash, h]

theorem cgs_eq_hash_spec_witness :
    cgsHash (fun s => s.tiles.length) cgsSolved = cgsHash (fun s => s.tiles.length) cgsOther :=
  (cgs_eq_hash_spec cgsSolved cgsOther).2 (fun s => s.tiles.length) (by rfl)

/-! ### Claim C9: the random-instance generator only accepts even parity -/

theorem randomSolvableAux_parity (shuffles : Nat → List Nat) :
    ∀ (fuel i : Nat) (st : EightPuzzleState),
      randomSolvableAux shuffles i fuel = some st → invPairs st.tiles % 2 = 0 := by
  intro fuel
  induction fuel with
  | zero => intro i st h; exact absurd h (by simp [randomSolvableAux])
  | succ f ih =>
    intro i st h
    rw [randomSolvableAux] at h
    by_cases hs : is_solvable (shuffles i) = true
    · rw [if_pos hs] at h
      cases h
      simpa [is_solvable] using hs
    · rw [if_neg hs] at h
      exact ih (i + 1) st h

/-- Claim C9: every sliding-tile state returned by `random_solvable` has an
even inversion count among its non-blank tiles, for every stream of shuffle
outcomes (odd-parity shuffles are rejected and retried). -/
theorem random_solvable_even_parity (shuffles : Nat → List Nat) (fuel : Nat)
    (st : EightPuzzleState) (h : random_solvable shuffles fuel = some st) :
    invPairs st.tiles % 2 = 0 :=
  randomSolvableAux_parity shuffles fuel 0 st h

theorem random_solvable_even_parity_witness :
    invPairs (EightPuzzleState.mk goalTiles).tiles % 2 = 0 :=
  random_solvable_even_parity (fun _ => goalTiles) 1 ⟨goalTiles⟩ (by rfl)

/-! ### Claim C5: the canonical missionaries-and-cannibals search -/

set_option maxHeartbeats 4000000 in
/-- Claim C5 counterexample: from the canonical start the engine's found
path has 12 states (the 11-crossing textbook solution), not 11 states as
claimed. -/
theorem mc_canonical_cex :
    (astar mcBeq mcProb (fun _ => 0) 100 mcStart).map
      (fun r => (r.goal_found, r.path.length)) = some (true, 12) := by
  decide

set_option maxHeartbeats 4000000 in
/-- Claim C5 (amended): from the canonical start (3 missionaries, 3
cannibals, boat left) the engine finds a path of exactly 12 states
including the start — the known 11-crossing textbook optimum — and every
state on the path satisfies the shore-validity invariant. -/
theorem mc_canonical_solution :
    (astar mcBeq mcProb (fun _ => 0) 100 mcStart).map
      (fun r => (r.goal_found, r.path.length, r.path.all mc_is_valid)) =
      some (true, 12, true) := by
  decide

/-! ### Claim C4 counterexample: expansion events can exceed visited states -/

set_option maxHeartbeats 4000000 in
/-- Claim C4 counterexample: on the ten-state graph `reopenProb` the
engine re-expands states after finding shorter paths to them, and the
report has `expanded_nodes = 16 > 10 = visited_states`, refuting
`visited_states ≥ expanded_nodes`. -/
theorem visited_ge_expanded_cex :
    (astar natBeq reopenProb (fun _ => 0) 40 0).map
      (fun r => (r.expanded_nodes, r.visited_states,
                 decide (r.expanded_nodes ≤ r.visited_states))) = some (16, 10, false) := by
  decide

/-! ### Claim C2 counterexample: the duplicated engine has no timeout -/

/-- Claim C2 counterexample: with a clock oracle already past the one-hour
ceiling, the generic engine reports not-found on an already-solved start
while `astar_custom_goal` — which lacks the safety check — reports the
goal found; the two reports differ on the same start state. -/
theorem custom_goal_timeout_cex :
    (astar cgsBEq cgsProb (fun _ => 3600) 2 cgsSolved).map (fun r => r.goal_found) = some false ∧
    (astar_custom_goal (fun _ => 3600) 2 cgsSolved).map (fun r => r.goal_found) = some true := by
  exact ⟨rfl, rfl⟩

/-! ### Claims C6 and C7: immediate-goal and dead starts -/

/-- Helper: a start that is already a goal returns immediately with the
single-state path, zero expansions and one visited state. -/
theorem astar_goal_start {S : Type} (beq : S → S → Bool) (P : SearchProb S)
    (elapsed : Nat → Nat) (fuel : Nat) (start : S)
    (hb : beq start start = true) (hnt : elapsed 0 < 3600)
    (hgoal : P.isGoal start = true) (hfuel : 1 ≤ fuel) :
    astar beq P elapsed fuel start = some ⟨[start], 0, 1, true, elapsed 0⟩ := by
  obtain ⟨f, rfl⟩ : ∃ f, fuel = f + 1 := ⟨fuel - 1, by omega⟩
  simp [astar, astarLoop, popBest, insertB, lookupB, hb, Nat.not_le.mpr hnt, hgoal,
        reconstruct_path, reconSteps]

/-- Claim C6: for every start state satisfying `is_goal`, the engine
returns a report whose path is exactly the one-element list holding that
state, with `expanded_nodes = 0` and `goal_found = true` (given reflexive
state equality, a first clock reading under the ceiling, and fuel for the
single iteration). -/
theorem astar_goal_start_spec {S : Type} (beq : S → S → Bool) (P : SearchProb S)
    (elapsed : Nat → Nat) (fuel : Nat) (start : S)
    (hb : beq start start = true) (hnt : elapsed 0 < 3600)
    (hgoal : P.isGoal start = true) (hfuel : 1 ≤ fuel) :
    astar beq P elapsed fuel start = some ⟨[start], 0, 1, true, elapsed 0⟩ :=
  astar_goal_start beq P elapsed fuel start hb hnt hgoal hfuel

theorem astar_goal_start_spec_witness :
    astar boolBeq stepProb (fun _ => 0) 1 true = some ⟨[true], 0, 1, true, 0⟩ :=
  astar_goal_start_spec boolBeq stepProb (fun _ => 0) 1 true (by rfl) (by decide) (by rfl)
    (by decide)

/-- Helper: a non-goal start with no successors is expanded once, the
frontier empties, and the engine reports not-found with an empty path. -/
theorem astar_dead_start {S : Type} (beq : S → S → Bool) (P : SearchProb S)
    (elapsed : Nat → Nat) (fuel : Nat) (start : S)
    (hb : beq start start = true) (hnt : elapsed 0 < 3600)
    (hgoal : P.isGoal start = false) (hsucc : P.successors start = [])
    (hfuel : 2 ≤ fuel) :
    astar beq P elapsed fuel start = some ⟨[], 1, 1, false, elapsed 1⟩ := by
  obtain ⟨f, rfl⟩ : ∃ f, fuel = f + 2 := ⟨fuel - 2, by omega⟩
  simp [astar, astarLoop, popBest, insertB, lookupB, hb, Nat.not_le.mpr hnt, hgoal, hsucc,
        relaxSuccs]

/-- Claim C7: for every non-goal start whose successor list is empty, the
engine reports `goal_found = false` with an empty path and
`expanded_nodes` exactly 1. -/
theorem astar_dead_start_spec {S : Type} (beq : S → S → Bool) (P : SearchProb S)
    (elapsed : Nat → Nat) (fuel : Nat) (start : S)
    (hb : beq start start = true) (hnt : elapsed 0 < 3600)
    (hgoal : P.isGoal start = false) (hsucc : P.successors start = [])
    (hfuel : 2 ≤ fuel) :
    astar beq P elapsed fuel start = some ⟨[], 1, 1, false, elapsed 1⟩ :=
  astar_dead_start beq P elapsed fuel start hb hnt hgoal hsucc hfuel

theorem astar_dead_start_spec_witness :
    astar natBeq reopenProb (fun _ => 0) 2 9 = some ⟨[], 1, 1, false, 0⟩ :=
  astar_dead_start_spec natBeq reopenProb (fun _ => 0) 2 9 (by rfl) (by decide) (by rfl)
    (by rfl) (by decide)

/-! ### Claim C2 (amended): the duplicated engine equals the generic one
whenever the one-hour ceiling is never reached -/

theorem entryCmpCG_eq : entryCmpCG = @entryCmp CustomGoalState := rfl

theorem relaxCustom_eq (cur : CustomGoalState) (g : Nat) :
    ∀ (l : List CustomGoalState) (oc),
      relaxCustom cur g l oc = relaxSuccs cgsBEq cgsProb cur g l oc := by
  intro l
  induction l with
  | nil => intro oc; rfl
  | cons s rest ih =>
    intro oc
    rcases h : lookupB cgsBEq oc.2 s with _ | w
    · simp only [relaxCustom, relaxSuccs, h, if_true]
      exact ih _
    · simp only [relaxCustom, relaxSuccs, h]
      split
      · exact ih _
      · exact ih _

theorem reconStepsCustom_eq (came : Came CustomGoalState) :
    ∀ (f : Nat) (cur : CustomGoalState),
      reconStepsCustom came f cur = reconSteps cgsBEq came f cur := by
  intro f
  induction f with
  | zero => intro cur; rfl
  | succ f ih =>
    intro cur
    rw [reconStepsCustom, reconSteps]
    rcases h : lookupB cgsBEq came cur with _ | ⟨_ | p, g⟩ <;> simp only [h]
    rw [ih]

theorem reconstruct_path_custom_eq (came : Came CustomGoalState) (cur : CustomGoalState) :
    reconstruct_path_custom came cur = reconstruct_path cgsBEq came cur := by
  unfold reconstruct_path_custom reconstruct_path
  rw [reconStepsCustom_eq]

theorem astarCustomLoop_eq (elapsed : Nat → Nat) (hnt : ∀ k, elapsed k < 3600) :
    ∀ (fuel : Nat) (opn : List (FrontierEntry CustomGoalState)) (came : Came CustomGoalState)
      (expanded k : Nat),
      astarCustomLoop elapsed fuel opn came expanded k =
        astarLoop cgsBEq cgsProb elapsed fuel opn came expanded k := by
  intro fuel
  induction fuel with
  | zero => intros; rfl
  | succ f ih =>
    intro opn came expanded k
    rw [astarCustomLoop, astarLoop, entryCmpCG_eq]
    cases hp : popBest entryCmp opn with
    | none => rfl
    | some pr =>
      obtain ⟨entry, opn1⟩ := pr
      dsimp only [cgsProb]
      rw [if_neg (Nat.not_le.mpr (hnt k))]
      by_cases hst : ((lookupB cgsBEq came entry.state).getD (none, u32Max)).2 < entry.g_cost
      · rw [if_pos hst, if_pos hst]
        exact ih _ _ _ _
      · rw [if_neg hst, if_neg hst]
        by_cases hgoal : cgs_is_goal entry.state = true
        · rw [if_pos hgoal, if_pos hgoal, reconstruct_path_custom_eq]
        · rw [if_neg hgoal, if_neg hgoal, relaxCustom_eq]
          exact ih _ _ _ _

/-- Claim C2 (amended): `astar_custom_goal` implements the same algorithm
as the generic engine step for step EXCEPT that it omits the one-hour
wall-clock safety check; for every start state and every clock history
that stays below the ceiling, the two engines produce identical reports. -/
theorem astar_custom_goal_equiv (elapsed : Nat → Nat) (hnt : ∀ k, elapsed k < 3600)
    (fuel : Nat) (start : CustomGoalState) :
    astar_custom_goal elapsed fuel start = astar cgsBEq cgsProb elapsed fuel start := by
  unfold astar_custom_goal astar
  exact astarCustomLoop_eq elapsed hnt fuel _ _ _ _

theorem astar_custom_goal_equiv_witness :
    astar_custom_goal (fun _ => 0) 10 cgsNear = astar cgsBEq cgsProb (fun _ => 0) 10 cgsNear :=
  astar_custom_goal_equiv (fun _ => 0) (fun _ => of_decide_eq_true rfl) 10 cgsNear

/-! ### Claim C10: the tic-tac-toe goal test -/

theorem winnerAux_line (cells : List (Option Player)) :
    ∀ (lines : List (Nat × Nat × Nat)) (p : Player), winnerAux cells lines = some p →
      ∃ line ∈ lines, lineFilled p cells line = true := by
  intro lines
  induction lines with
  | nil => intro p h; exact absurd h (by simp [winnerAux])
  | cons l rest ih =>
    intro p h
    obtain ⟨i, j, k⟩ := l
    rw [winnerAux] at h
    split at h
    · rename_i a b c hi hj hk
      split at h
      · rename_i habc
        obtain ⟨hab, hbc⟩ := habc
        obtain rfl : a = p := by injection h
        refine ⟨(i, j, k), List.mem_cons_self _ _, ?_⟩
        simp [lineFilled, hi, hj, hk, ← hab, ← hbc]
      · obtain ⟨line, hm, hf⟩ := ih p h
        exact ⟨line, List.mem_cons_of_mem _ hm, hf⟩
    · obtain ⟨line, hm, hf⟩ := ih p h
      exact ⟨line, List.mem_cons_of_mem _ hm, hf⟩

theorem winnerAux_isSome (cells : List (Option Player)) :
    ∀ (lines : List (Nat × Nat × Nat)) (p : Player) (line : Nat × Nat × Nat),
      line ∈ lines → lineFilled p cells line = true → (winnerAux cells lines).isSome := by
  intro lines
  induction lines with
  | nil => intro p line hm; exact absurd hm (List.not_mem_nil _)
  | cons l rest ih =>
    intro p line hm hf
    obtain ⟨i, j, k⟩ := l
    rw [winnerAux]
    rcases List.mem_cons.mp hm with rfl | hm2
    · simp only [lineFilled, Bool.and_eq_true, decide_eq_true_eq] at hf
      obtain ⟨⟨h1, h2⟩, h3⟩ := hf
      rw [h1, h2, h3]
      simp
    · split
      · rename_i a b c hi hj hk
        split
        · simp
        · exact ih p line hm2 hf
      · exact ih p line hm2 hf

/-- On a board where no O line is filled but some line is completely
filled, the winner scan must return X. -/
theorem winner_eq_X (s : XorTicTacToeState) (hno : oLineFilled s.cells = false)
    (hx : xLineFilled s.cells = true) : winner s = some Player.X := by
  simp only [xLineFilled, List.any_eq_true] at hx
  obtain ⟨line, hm, hf⟩ := hx
  have hsome := winnerAux_isSome s.cells WINNING_LINES Player.X line hm hf
  rcases ho : winner s with _ | p
  · rw [winner] at ho; rw [ho] at hsome; exact absurd hsome (by simp)
  · cases p with
    | X => rfl
    | O =>
      obtain ⟨l2, hm2, hf2⟩ := winnerAux_line s.cells WINNING_LINES Player.O ho
      rw [oLineFilled] at hno
      have := List.any_eq_true.mpr ⟨l2, hm2, hf2⟩
      rw [this] at hno
      exact absurd hno (by simp)

/-- Claim C10 counterexample: on a board whose first completed line (in
the engine's scan order) belongs to O while X also owns a completed line,
`is_goal` is false even though some winning line is completely filled with
X marks — refuting the claimed equivalence. -/
theorem ttt_goal_iff_cex :
    xLineFilled bBothLines.cells = true ∧ ttt_is_goal bBothLines = false := by
  exact ⟨rfl, rfl⟩

/-- Claim C10 (amended): `is_goal` holds exactly when `winner()` returns X
— the owner of the FIRST completely filled line in scan order.  Hence:
a goal state always has a completed X line; on any board without a
completed O line, `is_goal` is equivalent to the existence of a completed
X line; and a board on which only O has a completed line is not a goal,
has no successors, and an `astar` search from it reports not-found after
expanding exactly the start. -/
theorem ttt_goal_characterization :
    (∀ s : XorTicTacToeState, ttt_is_goal s = true → xLineFilled s.cells = true) ∧
    (∀ s : XorTicTacToeState, oLineFilled s.cells = false →
      (ttt_is_goal s = true ↔ xLineFilled s.cells = true)) ∧
    (∀ (s : XorTicTacToeState) (elapsed : Nat → Nat) (fuel : Nat),
      oLineFilled s.cells = true → xLineFilled s.cells = false →
      elapsed 0 < 3600 → 2 ≤ fuel →
      ttt_is_goal s = false ∧ ttt_successors s = [] ∧
        astar tttBeq tttProb elapsed fuel s = some ⟨[], 1, 1, false, elapsed 1⟩) := by
  have hgx : ∀ s : XorTicTacToeState, ttt_is_goal s = true → xLineFilled s.cells = true := by
    intro s hg
    simp only [ttt_is_goal, decide_eq_true_eq] at hg
    obtain ⟨line, hm, hf⟩ := winnerAux_line s.cells WINNING_LINES Player.X hg
    exact List.any_eq_true.mpr ⟨line, hm, hf⟩
  refine ⟨hgx, fun s hno => ⟨hgx s, fun hx => ?_⟩, fun s elapsed fuel ho hnx hnt hfuel => ?_⟩
  · simp only [ttt_is_goal, decide_eq_true_eq]
    exact winner_eq_X s hno hx
  · have hwin : ∃ p, winner s = some p := by
      simp only [oLineFilled, List.any_eq_true] at ho
      obtain ⟨line, hm, hf⟩ := ho
      have := winnerAux_isSome s.cells WINNING_LINES Player.O line hm hf
      rcases hw : winner s with _ | p
      · rw [winner] at hw; rw [hw] at this; exact absurd this (by simp)
      · exact ⟨p, rfl⟩
    have hgoal : ttt_is_goal s = false := by
      rcases hb : ttt_is_goal s with _ | _
      · rfl
      · exact absurd (hgx s hb) (by rw [hnx]; simp)
    have hsucc : ttt_successors s = [] := by
      obtain ⟨p, hp⟩ := hwin
      rw [ttt_successors, if_pos]
      rw [hp]
      simp
    exact ⟨hgoal, hsucc,
      astar_dead_start tttBeq tttProb elapsed fuel s (by simp [tttBeq]) hnt hgoal hsucc hfuel⟩

theorem ttt_goal_characterization_witness :
    ttt_is_goal bOwon = false ∧ ttt_successors bOwon = [] ∧
      astar tttBeq tttProb (fun _ => 0) 2 bOwon = some ⟨[], 1, 1, false, 0⟩ :=
  ttt_goal_characterization.2.2 bOwon (fun _ => 0) 2 (by rfl) (by rfl)
    (of_decide_eq_true rfl) (of_decide_eq_true rfl)



/-! ### Association-list lemmas for the best-cost map -/

theorem lookupB_insertB {S : Type} [DecidableEq S] {beq : S → S → Bool}
    (hbeq : ∀ a b, beq a b = true ↔ a = b) (c : Came S) (s t : S) (v : Option S × Nat) :
    lookupB beq (insertB beq c s v) t = if s = t then some v else lookupB beq c t := by
  induction c with
  | nil =>
    show (if beq s t = true then some v else none) = if s = t then some v else lookupB beq [] t
    by_cases hst : s = t
    · rw [if_pos ((hbeq s t).mpr hst), if_pos hst]
    · rw [if_neg (fun hb => hst ((hbeq s t).mp hb)), if_neg hst]
      rfl
  | cons kv rest ih =>
    obtain ⟨k, w⟩ := kv
    rw [insertB]
    by_cases hks : beq k s = true
    · rw [if_pos hks]
      obtain rfl : k = s := (hbeq k s).mp hks
      by_cases hkt : k = t
      · subst hkt
        rw [if_pos rfl, lookupB, if_pos ((hbeq k k).mpr rfl)]
      · have hnb : ¬ (beq k t = true) := fun hb => hkt ((hbeq k t).mp hb)
        rw [if_neg hkt, lookupB, lookupB, if_neg hnb, if_neg hnb]
    · rw [if_neg hks]
      have hks' : k ≠ s := fun h => hks ((hbeq k s).mpr h)
      rw [lookupB]
      by_cases hkt : beq k t = true
      · obtain rfl : k = t := (hbeq k t).mp hkt
        rw [if_pos hkt, if_neg (fun h => hks' h.symm), lookupB, if_pos hkt]
      · rw [if_neg hkt, ih]
        by_cases hst : s = t
        · rw [if_pos hst, if_pos hst]
        · rw [if_neg hst, if_neg hst, lookupB, if_neg hkt]

theorem lookupB_mem {S : Type} {beq : S → S → Bool}
    (hbeq : ∀ a b, beq a b = true ↔ a = b) :
    ∀ (c : Came S) (s : S) (w : Option S × Nat), lookupB beq c s = some w → (s, w) ∈ c := by
  intro c
  induction c with
  | nil => intro s w h; exact absurd h (by simp [lookupB])
  | cons kv rest ih =>
    obtain ⟨k, u⟩ := kv
    intro s w h
    by_cases hks : beq k s = true
    · obtain rfl : k = s := (hbeq k s).mp hks
      rw [lookupB, if_pos hks] at h
      obtain rfl : u = w := by injection h
      exact List.mem_cons_self _ _
    · rw [lookupB, if_neg hks] at h
      exact List.mem_cons_of_mem _ (ih s w h)

theorem insertB_length_cases {S : Type} {beq : S → S → Bool} :
    ∀ (c : Came S) (s : S) (v : Option S × Nat),
      ((lookupB beq c s).isSome → (insertB beq c s v).length = c.length) ∧
      (lookupB beq c s = none → (insertB beq c s v).length = c.length + 1) := by
  intro c
  induction c with
  | nil =>
    intro s v
    exact ⟨fun h => absurd h (by simp [lookupB]), fun _ => rfl⟩
  | cons kv rest ih =>
    obtain ⟨k, u⟩ := kv
    intro s v
    by_cases hks : beq k s = true
    · constructor
      · intro _
        rw [insertB, if_pos hks]
        rfl
      · intro h
        rw [lookupB, if_pos hks] at h
        exact absurd h (by simp)
    · constructor
      · intro h
        rw [lookupB, if_neg hks] at h
        rw [insertB, if_neg hks, List.length_cons, List.length_cons, (ih s v).1 h]
      · intro h
        rw [lookupB, if_neg hks] at h
        rw [insertB, if_neg hks, List.length_cons, List.length_cons, (ih s v).2 h]


/-! ### Frontier pop lemmas -/

theorem then_lt_iff (a b : Ordering) :
    a.then b = Ordering.lt ↔ (a = Ordering.lt ∨ (a = Ordering.eq ∧ b = Ordering.lt)) := by
  cases a <;> simp [Ordering.then]

theorem entryCmp_lt_iff {S : Type} (a b : FrontierEntry S) :
    entryCmp a b = Ordering.lt ↔
      (fCost b < fCost a ∨ (fCost b = fCost a ∧ b.h_cost < a.h_cost)) := by
  unfold entryCmp
  rw [then_lt_iff, Nat.compare_eq_lt, Nat.compare_eq_lt, Nat.compare_eq_eq]

theorem keyLe_refl {S : Type} (a : FrontierEntry S) : keyLe a a :=
  Or.inr ⟨rfl, Nat.le_refl _⟩

theorem keyLe_trans {S : Type} {a b c : FrontierEntry S} (h1 : keyLe a b) (h2 : keyLe b c) :
    keyLe a c := by
  unfold keyLe at h1 h2 ⊢
  omega

theorem entryCmp_lt_imp {S : Type} {a b : FrontierEntry S}
    (h : entryCmp a b = Ordering.lt) : keyLe b a := by
  rw [entryCmp_lt_iff] at h
  unfold keyLe
  omega

theorem entryCmp_not_lt {S : Type} {a b : FrontierEntry S}
    (h : ¬ entryCmp a b = Ordering.lt) : keyLe a b := by
  rw [entryCmp_lt_iff] at h
  unfold keyLe
  omega

theorem popBest_eq_none {E : Type} (cmp : E → E → Ordering) :
    ∀ l : List E, popBest cmp l = none → l = [] := by
  intro l h
  cases l with
  | nil => rfl
  | cons e rest =>
    rw [popBest] at h
    rcases hp : popBest cmp rest with _ | ⟨b, rest1⟩
    · simp only [hp] at h
      exact absurd h (by simp)
    · simp only [hp] at h
      rcases hc : cmp e b <;> simp only [hc] at h <;> exact absurd h (by simp)

theorem popBest_perm {E : Type} (cmp : E → E → Ordering) :
    ∀ (l : List E) (e : E) (l' : List E), popBest cmp l = some (e, l') → l.Perm (e :: l') := by
  intro l
  induction l with
  | nil => intro e l' h; exact absurd h (by simp [popBest])
  | cons a rest ih =>
    intro e l' h
    rw [popBest] at h
    rcases hp : popBest cmp rest with _ | ⟨b, rest1⟩
    · simp only [hp] at h
      have hrest : rest = [] := popBest_eq_none cmp rest hp
      obtain ⟨rfl, rfl⟩ := h
      rw [hrest]
    · simp only [hp] at h
      rcases hc : cmp a b <;> simp only [hc] at h
      · obtain ⟨rfl, rfl⟩ := h
        exact (List.Perm.cons a (ih _ _ hp)).trans (List.Perm.swap _ a _)
      · obtain ⟨rfl, rfl⟩ := h
        exact List.Perm.refl _
      · obtain ⟨rfl, rfl⟩ := h
        exact List.Perm.refl _

theorem popBest_mem {E : Type} (cmp : E → E → Ordering) (l : List E) (e : E) (l' : List E)
    (h : popBest cmp l = some (e, l')) : e ∈ l :=
  (popBest_perm cmp l e l' h).symm.subset (List.mem_cons_self _ _)

theorem popBest_sub {E : Type} (cmp : E → E → Ordering) (l : List E) (e : E) (l' : List E)
    (h : popBest cmp l = some (e, l')) : ∀ x ∈ l', x ∈ l :=
  fun x hx => (popBest_perm cmp l e l' h).symm.subset (List.mem_cons_of_mem _ hx)

theorem popBest_min {S : Type} :
    ∀ (l : List (FrontierEntry S)) (e : FrontierEntry S) (l' : List (FrontierEntry S)),
      popBest entryCmp l = some (e, l') → ∀ x ∈ l, keyLe e x := by
  intro l
  induction l with
  | nil => intro e l' h; exact absurd h (by simp [popBest])
  | cons a rest ih =>
    intro e l' h x hx
    rw [popBest] at h
    rcases hp : popBest entryCmp rest with _ | ⟨b, rest1⟩
    · simp only [hp] at h
      have hrest : rest = [] := popBest_eq_none _ rest hp
      obtain ⟨rfl, rfl⟩ := h
      rcases List.mem_cons.mp hx with rfl | hx2
      · exact keyLe_refl _
      · rw [hrest] at hx2
        exact absurd hx2 (List.not_mem_nil _)
    · simp only [hp] at h
      rcases hc : entryCmp a b <;> simp only [hc] at h
      · obtain ⟨rfl, rfl⟩ := h
        rcases List.mem_cons.mp hx with rfl | hx2
        · exact entryCmp_lt_imp hc
        · exact ih _ _ hp x hx2
      · obtain ⟨rfl, rfl⟩ := h
        rcases List.mem_cons.mp hx with rfl | hx2
        · exact keyLe_refl _
        · exact keyLe_trans (entryCmp_not_lt (by rw [hc]; intro hcc; cases hcc))
            (ih _ _ hp x hx2)
      · obtain ⟨rfl, rfl⟩ := h
        rcases List.mem_cons.mp hx with rfl | hx2
        · exact keyLe_refl _
        · exact keyLe_trans (entryCmp_not_lt (by rw [hc]; intro hcc; cases hcc))
            (ih _ _ hp x hx2)

/-! ### Lemmas about the successor relaxation loop -/

theorem relaxSuccs_open_mono {S : Type} {beq : S → S → Bool} (P : SearchProb S)
    (cur : S) (g : Nat) :
    ∀ (l : List S) (oc : List (FrontierEntry S) × Came S) (e : FrontierEntry S),
      e ∈ oc.1 → e ∈ (relaxSuccs beq P cur g l oc).1 := by
  intro l
  induction l with
  | nil => intro oc e he; exact he
  | cons s rest ih =>
    intro oc e he
    rcases hs : lookupB beq oc.2 s with _ | ws
    · simp only [relaxSuccs, hs, if_true]
      exact ih _ e (List.mem_cons_of_mem _ he)
    · simp only [relaxSuccs, hs]
      split
      · exact ih _ e (List.mem_cons_of_mem _ he)
      · exact ih _ e he

theorem relaxSuccs_lookup_persist {S : Type} [DecidableEq S] {beq : S → S → Bool}
    (hbeq : ∀ a b, beq a b = true ↔ a = b) (P : SearchProb S) (cur : S) (g : Nat) :
    ∀ (l : List S) (oc : List (FrontierEntry S) × Came S) (t : S) (w : Option S × Nat),
      lookupB beq oc.2 t = some w → w.2 ≤ Nat.min (g + 1) u32Max →
      lookupB beq (relaxSuccs beq P cur g l oc).2 t = some w := by
  intro l
  induction l with
  | nil => intro oc t w h _; exact h
  | cons s rest ih =>
    intro oc t w h hw
    rcases hs : lookupB beq oc.2 s with _ | ws
    · simp only [relaxSuccs, hs, if_true]
      apply ih _ t w _ hw
      rw [lookupB_insertB hbeq]
      by_cases hst : s = t
      · subst hst
        rw [h] at hs
        exact absurd hs (by simp)
      · rw [if_neg hst]
        exact h
    · simp only [relaxSuccs, hs]
      split
      · rename_i hneed
        have hlt : Nat.min (g + 1) u32Max < ws.2 := of_decide_eq_true hneed
        apply ih _ t w _ hw
        rw [lookupB_insertB hbeq]
        by_cases hst : s = t
        · exfalso
          subst hst
          rw [h] at hs
          obtain rfl : w = ws := by injection hs
          omega
        · rw [if_neg hst]
          exact h
      · exact ih _ t w h hw

theorem relaxSuccs_lookup_mono {S : Type} [DecidableEq S] {beq : S → S → Bool}
    (hbeq : ∀ a b, beq a b = true ↔ a = b) (P : SearchProb S) (cur : S) (g : Nat) :
    ∀ (l : List S) (oc : List (FrontierEntry S) × Came S) (t : S) (w : Option S × Nat),
      lookupB beq oc.2 t = some w →
      ∃ w', lookupB beq (relaxSuccs beq P cur g l oc).2 t = some w' ∧ w'.2 ≤ w.2 := by
  intro l
  induction l with
  | nil => intro oc t w h; exact ⟨w, h, Nat.le_refl _⟩
  | cons s rest ih =>
    intro oc t w h
    rcases hs : lookupB beq oc.2 s with _ | ws
    · simp only [relaxSuccs, hs, if_true]
      apply ih
      rw [lookupB_insertB hbeq]
      by_cases hst : s = t
      · subst hst
        rw [h] at hs
        exact absurd hs (by simp)
      · rw [if_neg hst]
        exact h
    · simp only [relaxSuccs, hs]
      split
      · rename_i hneed
        have hlt : Nat.min (g + 1) u32Max < ws.2 := of_decide_eq_true hneed
        by_cases hst : s = t
        · subst hst
          rw [h] at hs
          obtain rfl : w = ws := by injection hs
          obtain ⟨w', hw', hle⟩ := ih (⟨s, _, _⟩ :: oc.1, insertB beq oc.2 s
            (some cur, Nat.min (g + 1) u32Max)) s (some cur, Nat.min (g + 1) u32Max)
            (by rw [lookupB_insertB hbeq, if_pos rfl])
          exact ⟨w', hw', Nat.le_trans hle (Nat.le_of_lt hlt)⟩
        · apply ih
          rw [lookupB_insertB hbeq, if_neg hst]
          exact h
      · exact ih _ t w h

theorem relaxSuccs_lookup_cases {S : Type} [DecidableEq S] {beq : S → S → Bool}
    (hbeq : ∀ a b, beq a b = true ↔ a = b) (P : SearchProb S) (cur : S) (g : Nat) :
    ∀ (l : List S) (oc : List (FrontierEntry S) × Came S) (t : S) (w' : Option S × Nat),
      lookupB beq (relaxSuccs beq P cur g l oc).2 t = some w' →
      lookupB beq oc.2 t = some w' ∨
        (t ∈ l ∧ w' = (some cur, Nat.min (g + 1) u32Max) ∧
          (⟨t, Nat.min (g + 1) u32Max, P.heuristic t⟩ : FrontierEntry S) ∈
            (relaxSuccs beq P cur g l oc).1) := by
  intro l
  induction l with
  | nil => intro oc t w' h; exact Or.inl h
  | cons s rest ih =>
    intro oc t w' h
    rcases hs : lookupB beq oc.2 s with _ | ws
    · simp only [relaxSuccs, hs, if_true] at h ⊢
      rcases ih _ t w' h with hold | ⟨hm, hval, hent⟩
      · rw [lookupB_insertB hbeq] at hold
        by_cases hst : s = t
        · subst hst
          rw [if_pos rfl] at hold
          obtain rfl : (some cur, Nat.min (g + 1) u32Max) = w' := by injection hold
          refine Or.inr ⟨List.mem_cons_self _ _, rfl, ?_⟩
          exact relaxSuccs_open_mono P cur g rest _ _ (List.mem_cons_self _ _)
        · rw [if_neg hst] at hold
          exact Or.inl hold
      · exact Or.inr ⟨List.mem_cons_of_mem _ hm, hval, hent⟩
    · simp only [relaxSuccs, hs]
      simp only [relaxSuccs, hs] at h
      split at h
      · rename_i hneed
        rw [if_pos (by exact hneed)]
        rcases ih _ t w' h with hold | ⟨hm, hval, hent⟩
        · rw [lookupB_insertB hbeq] at hold
          by_cases hst : s = t
          · subst hst
            rw [if_pos rfl] at hold
            obtain rfl : (some cur, Nat.min (g + 1) u32Max) = w' := by injection hold
            refine Or.inr ⟨List.mem_cons_self _ _, rfl, ?_⟩
            exact relaxSuccs_open_mono P cur g rest _ _ (List.mem_cons_self _ _)
          · rw [if_neg hst] at hold
            exact Or.inl hold
        · exact Or.inr ⟨List.mem_cons_of_mem _ hm, hval, hent⟩
      · rename_i hneed
        rw [if_neg (by exact hneed)]
        rcases ih _ t w' h with hold | ⟨hm, hval, hent⟩
        · exact Or.inl hold
        · exact Or.inr ⟨List.mem_cons_of_mem _ hm, hval, hent⟩

theorem relaxSuccs_mem_succ {S : Type} [DecidableEq S] {beq : S → S → Bool}
    (hbeq : ∀ a b, beq a b = true ↔ a = b) (P : SearchProb S) (cur : S) (g : Nat) :
    ∀ (l : List S) (oc : List (FrontierEntry S) × Came S) (t : S), t ∈ l →
      ∃ w', lookupB beq (relaxSuccs beq P cur g l oc).2 t = some w' ∧
        w'.2 ≤ Nat.min (g + 1) u32Max := by
  intro l
  induction l with
  | nil => intro oc t ht; exact absurd ht (List.not_mem_nil _)
  | cons s rest ih =>
    intro oc t ht
    rcases List.mem_cons.mp ht with rfl | ht2
    · rcases hs : lookupB beq oc.2 t with _ | ws
      · simp only [relaxSuccs, hs, if_true]
        refine ⟨(some cur, Nat.min (g + 1) u32Max),
          relaxSuccs_lookup_persist hbeq P cur g rest _ t _ ?_ (Nat.le_refl _), Nat.le_refl _⟩
        rw [lookupB_insertB hbeq, if_pos rfl]
      · simp only [relaxSuccs, hs]
        split
        · refine ⟨(some cur, Nat.min (g + 1) u32Max),
            relaxSuccs_lookup_persist hbeq P cur g rest _ t _ ?_ (Nat.le_refl _), Nat.le_refl _⟩
          rw [lookupB_insertB hbeq, if_pos rfl]
        · rename_i hneed
          have hge : ¬ Nat.min (g + 1) u32Max < ws.2 := fun hlt => hneed (decide_eq_true hlt)
          exact ⟨ws, relaxSuccs_lookup_persist hbeq P cur g rest _ t ws hs (Nat.le_of_not_lt hge),
            Nat.le_of_not_lt hge⟩
    · rcases hs : lookupB beq oc.2 s with _ | ws
      · simp only [relaxSuccs, hs, if_true]
        exact ih _ t ht2
      · simp only [relaxSuccs, hs]
        split
        · exact ih _ t ht2
        · exact ih _ t ht2

theorem relaxSuccs_open_cases {S : Type} {beq : S → S → Bool} (P : SearchProb S)
    (cur : S) (g : Nat) :
    ∀ (l : List S) (oc : List (FrontierEntry S) × Came S) (e : FrontierEntry S),
      e ∈ (relaxSuccs beq P cur g l oc).1 →
      e ∈ oc.1 ∨ (e.state ∈ l ∧ e.g_cost = Nat.min (g + 1) u32Max ∧
        e.h_cost = P.heuristic e.state) := by
  intro l
  induction l with
  | nil => intro oc e he; exact Or.inl he
  | cons s rest ih =>
    intro oc e he
    rcases hs : lookupB beq oc.2 s with _ | ws
    · simp only [relaxSuccs, hs, if_true] at he
      rcases ih _ e he with hold | ⟨hm, hg, hh⟩
      · rcases List.mem_cons.mp hold with rfl | hin
        · exact Or.inr ⟨List.mem_cons_self _ _, rfl, rfl⟩
        · exact Or.inl hin
      · exact Or.inr ⟨List.mem_cons_of_mem _ hm, hg, hh⟩
    · simp only [relaxSuccs, hs] at he
      split at he
      · rcases ih _ e he with hold | ⟨hm, hg, hh⟩
        · rcases List.mem_cons.mp hold with rfl | hin
          · exact Or.inr ⟨List.mem_cons_self _ _, rfl, rfl⟩
          · exact Or.inl hin
        · exact Or.inr ⟨List.mem_cons_of_mem _ hm, hg, hh⟩
      · rcases ih _ e he with hold | ⟨hm, hg, hh⟩
        · exact Or.inl hold
        · exact Or.inr ⟨List.mem_cons_of_mem _ hm, hg, hh⟩

theorem relaxSuccs_length_mono {S : Type} {beq : S → S → Bool} (P : SearchProb S)
    (cur : S) (g : Nat) :
    ∀ (l : List S) (oc : List (FrontierEntry S) × Came S),
      oc.2.length ≤ (relaxSuccs beq P cur g l oc).2.length := by
  intro l
  induction l with
  | nil => intro oc; exact Nat.le_refl _
  | cons s rest ih =>
    intro oc
    rcases hs : lookupB beq oc.2 s with _ | ws
    · simp only [relaxSuccs, hs, if_true]
      refine Nat.le_trans ?_ (ih _)
      rw [(insertB_length_cases oc.2 s _).2 hs]
      exact Nat.le_succ _
    · simp only [relaxSuccs, hs]
      split
      · refine Nat.le_trans ?_ (ih _)
        rw [(insertB_length_cases oc.2 s _).1 (by rw [hs]; rfl)]
      · exact ih _

theorem relaxSuccs_glt {S : Type} [DecidableEq S] {beq : S → S → Bool}
    (hbeq : ∀ a b, beq a b = true ↔ a = b) (P : SearchProb S) (cur : S) (g : Nat) :
    ∀ (l : List S) (oc : List (FrontierEntry S) × Came S),
      (∀ t w, lookupB beq oc.2 t = some w → w.2 < oc.2.length) →
      Nat.min (g + 1) u32Max ≤ oc.2.length →
      ∀ t w', lookupB beq (relaxSuccs beq P cur g l oc).2 t = some w' →
        w'.2 < (relaxSuccs beq P cur g l oc).2.length := by
  intro l
  induction l with
  | nil => intro oc hinv _ t w' h; exact hinv t w' h
  | cons s rest ih =>
    intro oc hinv htent t w' h
    rcases hs : lookupB beq oc.2 s with _ | ws
    · simp only [relaxSuccs, hs, if_true] at h ⊢
      refine ih _ ?_ ?_ t w' h
      · intro u wu hu
        rw [(insertB_length_cases oc.2 s _).2 hs]
        rw [lookupB_insertB hbeq] at hu
        by_cases hsu : s = u
        · rw [if_pos hsu] at hu
          obtain rfl : (some cur, Nat.min (g + 1) u32Max) = wu := by injection hu
          exact Nat.lt_succ_of_le htent
        · rw [if_neg hsu] at hu
          exact Nat.lt_succ_of_lt (hinv u wu hu)
      · rw [(insertB_length_cases oc.2 s _).2 hs]
        exact Nat.le_succ_of_le htent
    · simp only [relaxSuccs, hs] at h ⊢
      split at h
      · rename_i hneed
        have hlt : Nat.min (g + 1) u32Max < ws.2 := of_decide_eq_true hneed
        have hlen : (insertB beq oc.2 s (some cur, Nat.min (g + 1) u32Max)).length =
            oc.2.length := (insertB_length_cases oc.2 s _).1 (by rw [hs]; rfl)
        rw [if_pos (by exact hneed)]
        refine ih _ ?_ ?_ t w' h
        · intro u wu hu
          rw [hlen]
          rw [lookupB_insertB hbeq] at hu
          by_cases hsu : s = u
          · rw [if_pos hsu] at hu
            obtain rfl : (some cur, Nat.min (g + 1) u32Max) = wu := by injection hu
            exact Nat.lt_of_lt_of_le hlt (Nat.le_of_lt (hinv s ws hs))
          · rw [if_neg hsu] at hu
            exact hinv u wu hu
        · rw [hlen]
          exact htent
      · rename_i hneed
        rw [if_neg (by exact hneed)]
        exact ih _ hinv htent t w' h

/-! ### Distinct-count lemmas -/

theorem dedupB_subset {S : Type} (beq : S → S → Bool) :
    ∀ (n : Nat) (l : List S), l.length ≤ n → ∀ x ∈ dedupB beq l, x ∈ l := by
  intro n
  induction n with
  | zero =>
    intro l hl x hx
    rw [List.length_eq_zero.mp (Nat.le_zero.mp hl)] at hx ⊢
    simpa [dedupB] using hx
  | succ n ih =>
    intro l hl x hx
    cases l with
    | nil => simpa [dedupB] using hx
    | cons s rest =>
      rw [dedupB] at hx
      rcases List.mem_cons.mp hx with rfl | hx2
      · exact List.mem_cons_self _ _
      · have hlen : (rest.filter (fun t => !beq s t)).length ≤ n :=
          Nat.le_trans (List.length_filter_le _ _) (Nat.lt_succ_iff.mp
            (Nat.lt_of_lt_of_le (Nat.lt_succ_of_le (Nat.le_refl _))
              (by simpa using hl)))
        exact List.mem_cons_of_mem _ (List.mem_of_mem_filter (ih _ hlen x hx2))

theorem dedupB_nodup {S : Type} {beq : S → S → Bool}
    (hbeq : ∀ a b, beq a b = true ↔ a = b) :
    ∀ (n : Nat) (l : List S), l.length ≤ n → (dedupB beq l).Nodup := by
  intro n
  induction n with
  | zero =>
    intro l hl
    rw [List.length_eq_zero.mp (Nat.le_zero.mp hl)]
    simp [dedupB]
  | succ n ih =>
    intro l hl
    cases l with
    | nil => simp [dedupB]
    | cons s rest =>
      rw [dedupB, List.nodup_cons]
      have hlen : (rest.filter (fun t => !beq s t)).length ≤ n :=
        Nat.le_trans (List.length_filter_le _ _) (by simpa using hl)
      refine ⟨fun hmem => ?_, ih _ hlen⟩
      have hx := dedupB_subset beq n _ hlen s hmem
      have := List.of_mem_filter hx
      rw [(by rw [(hbeq s s).mpr rfl] : (!beq s s) = !true)] at this
      exact absurd this (by simp)

theorem nodup_subset_length {S : Type} [DecidableEq S] (l1 l2 : List S)
    (h1 : l1.Nodup) (hs : l1 ⊆ l2) : l1.length ≤ l2.length := by
  calc l1.length = l1.toFinset.card := (List.toFinset_card_of_nodup h1).symm
  _ ≤ l2.toFinset.card := Finset.card_le_card (fun x hx => by
      rw [List.mem_toFinset] at hx ⊢
      exact hs hx)
  _ ≤ l2.length := l2.toFinset_card_le

theorem dedupB_length_le {S : Type} [DecidableEq S] {beq : S → S → Bool}
    (hbeq : ∀ a b, beq a b = true ↔ a = b) (l : List S) (c : Came S)
    (hb : ∀ s ∈ l, (lookupB beq c s).isSome) : (dedupB beq l).length ≤ c.length := by
  have hsub : dedupB beq l ⊆ cameKeys c := by
    intro x hx
    have hxl : x ∈ l := dedupB_subset beq l.length l (Nat.le_refl _) x hx
    rcases ho : lookupB beq c x with _ | w
    · have hcontra := hb x hxl
      rw [ho] at hcontra
      exact absurd hcontra (by simp)
    · exact List.mem_map.mpr ⟨(x, w), lookupB_mem hbeq c x w ho, rfl⟩
  calc (dedupB beq l).length ≤ (cameKeys c).length :=
    nodup_subset_length _ _ (dedupB_nodup hbeq l.length l (Nat.le_refl _)) hsub
  _ = c.length := List.length_map _ _

/-! ### The instrumented loop projects to the engine loop -/

theorem astarLoop_eq_projE {S : Type} {beq : S → S → Bool} (P : SearchProb S)
    (elapsed : Nat → Nat) :
    ∀ (fuel : Nat) (opn : List (FrontierEntry S)) (came : Came S) (trace : List (S × Nat))
      (expanded k : Nat),
      astarLoop beq P elapsed fuel opn came expanded k =
        (astarLoopE beq P elapsed fuel opn came trace expanded k).map Prod.fst := by
  intro fuel
  induction fuel with
  | zero => intros; rfl
  | succ fuel ih =>
    intro opn came trace expanded k
    rw [astarLoop, astarLoopE]
    cases hp : popBest entryCmp opn with
    | none => rfl
    | some pr =>
      obtain ⟨entry, opn1⟩ := pr
      dsimp only
      by_cases hto : 3600 ≤ elapsed k
      · rw [if_pos hto, if_pos hto]
        rfl
      · rw [if_neg hto, if_neg hto]
        by_cases hst : ((lookupB beq came entry.state).getD (none, u32Max)).2 < entry.g_cost
        · rw [if_pos hst, if_pos hst]
          exact ih _ _ _ _ _
        · rw [if_neg hst, if_neg hst]
          by_cases hg : P.isGoal entry.state = true
          · rw [if_pos hg, if_pos hg]
            rfl
          · rw [if_neg hg, if_neg hg]
            exact ih _ _ _ _ _

theorem astar_eq_projE {S : Type} {beq : S → S → Bool} (P : SearchProb S)
    (elapsed : Nat → Nat) (fuel : Nat) (start : S) :
    astar beq P elapsed fuel start = (astarE beq P elapsed fuel start).map Prod.fst :=
  astarLoop_eq_projE P elapsed fuel _ _ _ _ _

/-! ### Claim C4 (amended): visited states bound the distinct expanded states -/

theorem astarLoopE_counts {S : Type} [DecidableEq S] {beq : S → S → Bool}
    (hbeq : ∀ a b, beq a b = true ↔ a = b) (P : SearchProb S) (elapsed : Nat → Nat) :
    ∀ (fuel : Nat) (opn : List (FrontierEntry S)) (came : Came S) (trace : List (S × Nat))
      (expanded k : Nat) (r : SearchReport S) (l : List (S × Nat)),
      (∀ e ∈ opn, (lookupB beq came e.state).isSome) →
      (∀ t ∈ trace, (lookupB beq came t.1).isSome) →
      expanded = trace.length →
      astarLoopE beq P elapsed fuel opn came trace expanded k = some (r, l) →
      r.expanded_nodes = l.length ∧ (dedupB beq (l.map Prod.fst)).length ≤ r.visited_states := by
  intro fuel
  induction fuel with
  | zero =>
    intro opn came trace expanded k r l _ _ _ hrun
    exact absurd hrun (by simp [astarLoopE])
  | succ fuel ih =>
    intro opn came trace expanded k r l hopen htrace hexp hrun
    rw [astarLoopE] at hrun
    rcases hp : popBest entryCmp opn with _ | ⟨entry, opn1⟩
    · simp only [hp] at hrun
      obtain ⟨rfl, rfl⟩ := hrun
      refine ⟨hexp, dedupB_length_le hbeq _ came (fun s hs => ?_)⟩
      obtain ⟨t, htm, rfl⟩ := List.mem_map.mp hs
      exact htrace t htm
    · simp only [hp] at hrun
      by_cases hto : 3600 ≤ elapsed k
      · rw [if_pos hto] at hrun
        obtain ⟨rfl, rfl⟩ := hrun
        refine ⟨hexp, dedupB_length_le hbeq _ came (fun s hs => ?_)⟩
        obtain ⟨t, htm, rfl⟩ := List.mem_map.mp hs
        exact htrace t htm
      · rw [if_neg hto] at hrun
        by_cases hst : ((lookupB beq came entry.state).getD (none, u32Max)).2 < entry.g_cost
        · rw [if_pos hst] at hrun
          exact ih _ _ _ _ _ r l
            (fun e he => hopen e (popBest_sub entryCmp opn entry opn1 hp e he))
            htrace hexp hrun
        · rw [if_neg hst] at hrun
          by_cases hg : P.isGoal entry.state = true
          · rw [if_pos hg] at hrun
            obtain ⟨rfl, rfl⟩ := hrun
            refine ⟨hexp, dedupB_length_le hbeq _ came (fun s hs => ?_)⟩
            obtain ⟨t, htm, rfl⟩ := List.mem_map.mp hs
            exact htrace t htm
          · rw [if_neg hg] at hrun
            refine ih _ _ _ _ _ r l ?_ ?_ ?_ hrun
            · intro e he
              rcases relaxSuccs_open_cases P entry.state entry.g_cost _ _ e he with hin | ⟨hm, _, _⟩
              · have hb := hopen e (popBest_sub entryCmp opn entry opn1 hp e hin)
                rcases hb2 : lookupB beq came e.state with _ | w
                · rw [hb2] at hb
                  exact absurd hb (by simp)
                · obtain ⟨w', hw', _⟩ :=
                    relaxSuccs_lookup_mono hbeq P entry.state entry.g_cost
                      (P.successors entry.state) (opn1, came) e.state w hb2
                  rw [hw']
                  rfl
              · obtain ⟨w', hw', _⟩ :=
                  relaxSuccs_mem_succ hbeq P entry.state entry.g_cost
                    (P.successors entry.state) (opn1, came) e.state hm
                rw [hw']
                rfl
            · intro t ht
              rcases List.mem_append.mp ht with htold | htnew
              · have hb := htrace t htold
                rcases hb2 : lookupB beq came t.1 with _ | w
                · rw [hb2] at hb
                  exact absurd hb (by simp)
                · obtain ⟨w', hw', _⟩ :=
                    relaxSuccs_lookup_mono hbeq P entry.state entry.g_cost
                      (P.successors entry.state) (opn1, came) t.1 w hb2
                  rw [hw']
                  rfl
              · obtain rfl : t = (entry.state, entry.g_cost) := by
                  simpa using htnew
                have hb := hopen entry (popBest_mem entryCmp opn entry opn1 hp)
                rcases hb2 : lookupB beq came entry.state with _ | w
                · rw [hb2] at hb
                  exact absurd hb (by simp)
                · obtain ⟨w', hw', _⟩ :=
                    relaxSuccs_lookup_mono hbeq P entry.state entry.g_cost
                      (P.successors entry.state) (opn1, came) entry.state w hb2
                  rw [hw']
                  rfl
            · rw [hexp, List.length_append]
              rfl

/-- Claim C4 (amended): for every start state, the engine's visited-state
count (the size of the best-cost map) is at least the number of DISTINCT
states expanded, and `expanded_nodes` counts expansion events — it can
exceed `visited_states` when states are re-expanded after a shorter path
to them is discovered (see the counterexample). -/
theorem astar_visited_ge_distinct {S : Type} [DecidableEq S] (beq : S → S → Bool)
    (P : SearchProb S) (elapsed : Nat → Nat) (fuel : Nat) (start : S)
    (hbeq : ∀ a b, beq a b = true ↔ a = b) (r : SearchReport S) (l : List (S × Nat))
    (hrun : astarE beq P elapsed fuel start = some (r, l)) :
    astar beq P elapsed fuel start = some r ∧
      r.expanded_nodes = l.length ∧
      (dedupB beq (l.map Prod.fst)).length ≤ r.visited_states := by
  refine ⟨by rw [astar_eq_projE P elapsed fuel start, hrun]; rfl, ?_⟩
  refine astarLoopE_counts hbeq P elapsed fuel [⟨start, 0, P.heuristic start⟩]
    (insertB beq [] start (none, 0)) [] 0 0 r l ?_ ?_ rfl hrun
  · intro e he
    obtain rfl : e = ⟨start, 0, P.heuristic start⟩ := by simpa using he
    show (lookupB beq (insertB beq [] start (none, 0)) start).isSome = true
    rw [lookupB_insertB hbeq, if_pos rfl]
    rfl
  · intro t ht
    exact absurd ht (List.not_mem_nil _)

theorem astar_visited_ge_distinct_witness :
    astar boolBeq stepProb (fun _ => 0) 5 false = some ⟨[false, true], 1, 2, true, 0⟩ ∧
      (⟨[false, true], 1, 2, true, 0⟩ : SearchReport Bool).expanded_nodes =
        ([(false, 0)] : List (Bool × Nat)).length ∧
      (dedupB boolBeq (([(false, 0)] : List (Bool × Nat)).map Prod.fst)).length ≤
        (⟨[false, true], 1, 2, true, 0⟩ : SearchReport Bool).visited_states :=
  astar_visited_ge_distinct boolBeq stepProb (fun _ => 0) 5 false
    (fun a b => by cases a <;> cases b <;> simp [boolBeq])
    ⟨[false, true], 1, 2, true, 0⟩ [(false, 0)] (by rfl)

/-! ### Reachability lemmas -/

theorem ReachN_snoc {S : Type} (P : SearchProb S) :
    ∀ (n : Nat) (s t u : S), ReachN P n s t → u ∈ P.successors t → ReachN P (n + 1) s u := by
  intro n
  induction n with
  | zero =>
    intro s t u h hu
    obtain rfl : s = t := h
    exact ⟨u, hu, rfl⟩
  | succ n ih =>
    intro s t u h hu
    obtain ⟨w, hw, hr⟩ := h
    exact ⟨w, hw, ih w t u hr hu⟩

theorem GoalIn_compose {S : Type} (P : SearchProb S) :
    ∀ (m : Nat) (a b : S) (k : Nat), ReachN P m a b → GoalIn P k b → GoalIn P (m + k) a := by
  intro m
  induction m with
  | zero =>
    intro a b k h hg
    obtain rfl : a = b := h
    rw [Nat.zero_add]
    exact hg
  | succ m ih =>
    intro a b k h hg
    obtain ⟨w, hw, hr⟩ := h
    rw [Nat.succ_add]
    exact ⟨w, hw, ih w b k hr hg⟩

theorem bfsSearch_spec {S : Type} (P : SearchProb S) (s : S) :
    ∀ (fuel d m : Nat), bfsSearch P s d fuel = some m →
      d ≤ m ∧ GoalIn P m s ∧ ∀ j, d ≤ j → j < m → ¬ GoalIn P j s := by
  intro fuel
  induction fuel with
  | zero => intro d m h; exact absurd h (by simp [bfsSearch])
  | succ fuel ih =>
    intro d m h
    rw [bfsSearch] at h
    by_cases hd : GoalIn P d s
    · rw [if_pos hd] at h
      obtain rfl : d = m := by injection h
      exact ⟨Nat.le_refl _, hd, fun j h1 h2 => absurd (Nat.lt_of_le_of_lt h1 h2)
        (Nat.lt_irrefl _)⟩
    · rw [if_neg hd] at h
      obtain ⟨h1, h2, h3⟩ := ih (d + 1) m h
      refine ⟨Nat.le_of_succ_le h1, h2, fun j hdj hjm => ?_⟩
      rcases Nat.eq_or_lt_of_le hdj with rfl | hlt
      · exact hd
      · exact h3 j hlt hjm

theorem exists_opt_path {S : Type} (P : SearchProb S) :
    ∀ (n : Nat) (s : S), GoalIn P n s → ∃ v : Nat → S, OptPath P s n v := by
  intro n
  induction n with
  | zero =>
    intro s h
    refine ⟨fun _ => s, ⟨rfl, fun i hi => absurd hi (Nat.not_lt_zero _), ?_, ?_⟩⟩
    · intro i hi
      obtain rfl : i = 0 := Nat.le_zero.mp hi
      exact h
    · intro i hi
      obtain rfl : i = 0 := Nat.le_zero.mp hi
      exact rfl
  | succ n ih =>
    intro s h
    obtain ⟨u, hu, hg⟩ := h
    obtain ⟨v', hv'⟩ := ih u hg
    refine ⟨fun i => match i with | 0 => s | j + 1 => v' j, ⟨rfl, ?_, ?_, ?_⟩⟩
    · intro i hi
      cases i with
      | zero =>
        show v' 0 ∈ P.successors s
        rw [hv'.base]
        exact hu
      | succ j =>
        exact hv'.step j (Nat.lt_of_succ_lt_succ hi)
    · intro i hi
      cases i with
      | zero => exact ⟨u, hu, hg⟩
      | succ j =>
        show GoalIn P (n + 1 - (j + 1)) (v' j)
        rw [Nat.succ_sub_succ]
        exact hv'.suffix j (Nat.le_of_succ_le_succ hi)
    · intro i hi
      cases i with
      | zero => exact rfl
      | succ j =>
        exact ⟨u, hu, hv'.reach j (Nat.le_of_succ_le_succ hi)⟩

theorem optPath_value_lb {S : Type} {P : SearchProb S} {start : S} {n : Nat} {v : Nat → S}
    (hv : OptPath P start n v) (hmin : ∀ m, m < n → ¬ GoalIn P m start)
    (j : Nat) (hj : j ≤ n) (m : Nat) (hr : ReachN P m start (v j)) : j ≤ m := by
  by_contra hcon
  push_neg at hcon
  have hg : GoalIn P (m + (n - j)) start := GoalIn_compose P m start (v j) (n - j) hr
    (hv.suffix j hj)
  exact hmin _ (by omega) hg

/-! ### Path reconstruction lemmas -/

theorem backChain_reach {S : Type} (P : SearchProb S) (start : S) :
    ∀ (t : List S) (c : S), BackChain P start (c :: t) →
      ReachN P ((c :: t).length - 1) start c := by
  intro t
  induction t with
  | nil =>
    intro c h
    obtain rfl : c = start := h
    exact rfl
  | cons p rest ih =>
    intro c h
    obtain ⟨hedge, hchain⟩ := h
    have hr := ih p hchain
    have := ReachN_snoc P ((p :: rest).length - 1) start p c hr hedge
    simpa using this

theorem reconSteps_spec {S : Type} {beq : S → S → Bool} (P : SearchProb S) (start : S)
    (came : Came S)
    (hroot : ∀ s g, lookupB beq came s = some (none, g) → s = start ∧ g = 0)
    (hpar : ∀ s p g, lookupB beq came s = some (some p, g) →
      s ∈ P.successors p ∧ ∃ w, lookupB beq came p = some w ∧ w.2 < g) :
    ∀ (fuelR : Nat) (c : S) (w : Option S × Nat), lookupB beq came c = some w → w.2 < fuelR →
      ∃ t, reconSteps beq came fuelR c = c :: t ∧ BackChain P start (c :: t) ∧
        (c :: t).length ≤ w.2 + 1 := by
  intro fuelR
  induction fuelR with
  | zero => intro c w h hw; omega
  | succ f ih =>
    intro c w h hw
    obtain ⟨po, g⟩ := w
    rcases po with _ | p
    · obtain ⟨rfl, rfl⟩ := hroot c g h
      refine ⟨[], ?_, rfl, by simp⟩
      simp only [reconSteps, h]
    · obtain ⟨hedge, wp, hwp, hlt⟩ := hpar c p g h
      have hwpf : wp.2 < f := by omega
      obtain ⟨t', heq, hchain, hlen⟩ := ih p wp hwp hwpf
      refine ⟨p :: t', ?_, ⟨hedge, hchain⟩, ?_⟩
      · simp only [reconSteps, h, heq]
      · simp only [List.length_cons] at hlen ⊢
        omega

/-! ### Deriving a frontier witness on the optimal path -/

theorem exists_good {S : Type} {beq : S → S → Bool} {P : SearchProb S} {n : Nat} {v : Nat → S}
    {opn : List (FrontierEntry S)} {came : Came S} {trace : List (S × Nat)}
    (hoi : OptInv beq P n v opn came trace)
    (hgoaln : P.isGoal (v n) = true)
    (hbase : (lookupB beq came (v 0)).map (fun w => w.2) = some 0) :
    ∃ j, j ≤ n ∧ ∃ e ∈ opn, e.state = v j ∧ e.g_cost = j := by
  suffices haux : ∀ m j, j ≤ n → n - j ≤ m →
      (lookupB beq came (v j)).map (fun w => w.2) = some j →
      ∃ i, i ≤ n ∧ ∃ e ∈ opn, e.state = v i ∧ e.g_cost = i by
    exact haux n 0 (Nat.zero_le n) (by omega) hbase
  intro m
  induction m with
  | zero =>
    intro j hj hm hval
    obtain rfl : j = n := by omega
    rcases hoi.covered j (Nat.le_refl j) hval with hgood | htr
    · exact ⟨j, Nat.le_refl j, hgood⟩
    · have hf := hoi.noGoalTrace (v j, j) htr
      rw [hgoaln] at hf
      exact absurd hf (by simp)
  | succ m ihm =>
    intro j hj hm hval
    rcases hoi.covered j hj hval with hgood | htr
    · exact ⟨j, hj, hgood⟩
    · by_cases hjn : j = n
      · subst hjn
        have hf := hoi.noGoalTrace (v j, j) htr
        rw [hgoaln] at hf
        exact absurd hf (by simp)
      · have hjn' : j < n := Nat.lt_of_le_of_ne hj hjn
        exact ihm (j + 1) hjn' (by omega) (hoi.afterTrace j hjn' htr)

/-! ### Invariant preservation through one expansion step -/

theorem aInv_expand {S : Type} [DecidableEq S] {beq : S → S → Bool}
    (hbeq : ∀ a b, beq a b = true ↔ a = b) {P : SearchProb S} {start : S} {E : Nat}
    {opn : List (FrontierEntry S)} {came : Came S}
    (hinv : AInv beq P start E opn came)
    {x : FrontierEntry S} {opn1 : List (FrontierEntry S)}
    (hp : popBest entryCmp opn = some (x, opn1))
    (hstale : ¬ ((lookupB beq came x.state).getD (none, u32Max)).2 < x.g_cost)
    (hsat : x.g_cost + 1 ≤ u32Max) :
    AInv beq P start (E + 1)
      (relaxSuccs beq P x.state x.g_cost (P.successors x.state) (opn1, came)).1
      (relaxSuccs beq P x.state x.g_cost (P.successors x.state) (opn1, came)).2 := by
  have hxmem : x ∈ opn := popBest_mem entryCmp opn x opn1 hp
  obtain ⟨w0, hw0, hw0le⟩ := hinv.openBind x hxmem
  have hxE : x.g_cost ≤ E := hinv.openGle x hxmem
  have hxreach : ReachN P x.g_cost start x.state := hinv.openReach x hxmem
  have hw0eq : w0.2 = x.g_cost := by
    have hnot : ¬ w0.2 < x.g_cost := by
      intro hlt
      apply hstale
      rw [hw0]
      exact hlt
    omega
  have htent : Nat.min (x.g_cost + 1) u32Max = x.g_cost + 1 := Nat.min_eq_left hsat
  have hglt0 : x.g_cost < came.length := hw0eq ▸ hinv.cameGlt x.state w0 hw0
  refine ⟨?_, ?_, ?_, ?_, ?_, ?_, ?_, ?_, ?_⟩
  · exact relaxSuccs_lookup_persist hbeq P x.state x.g_cost _ _ start (none, 0)
      hinv.startBind (Nat.zero_le _)
  · intro s g hs
    rcases relaxSuccs_lookup_cases hbeq P x.state x.g_cost _ _ s (none, g) hs with
      hold | ⟨_, hval, _⟩
    · exact hinv.rootOnly s g hold
    · exact absurd (congrArg Prod.fst hval) (by simp)
  · intro s p g hs
    rcases relaxSuccs_lookup_cases hbeq P x.state x.g_cost _ _ s (some p, g) hs with
      hold | ⟨hm, hval, _⟩
    · obtain ⟨hedge, wp, hwp, hwplt⟩ := hinv.parentStep s p g hold
      obtain ⟨wp', hwp', hwple⟩ :=
        relaxSuccs_lookup_mono hbeq P x.state x.g_cost (P.successors x.state) (opn1, came)
          p wp hwp
      exact ⟨hedge, wp', hwp', by omega⟩
    · have h1 : some p = some x.state := congrArg Prod.fst hval
      have h2 : g = Nat.min (x.g_cost + 1) u32Max := congrArg Prod.snd hval
      obtain rfl : p = x.state := by injection h1
      refine ⟨hm, w0, ?_, ?_⟩
      · exact relaxSuccs_lookup_persist hbeq P x.state x.g_cost _ _ x.state w0 hw0
          (by rw [htent]; omega)
      · rw [h2, htent]
        omega
  · intro s w' hs
    rcases relaxSuccs_lookup_cases hbeq P x.state x.g_cost _ _ s w' hs with
      hold | ⟨hm, hval, _⟩
    · exact hinv.cameReach s w' hold
    · rw [hval]
      show ReachN P (Nat.min (x.g_cost + 1) u32Max) start s
      rw [htent]
      exact ReachN_snoc P x.g_cost start x.state s hxreach hm
  · intro e he
    rcases relaxSuccs_open_cases P x.state x.g_cost _ _ e he with hold | ⟨hm, hg, _⟩
    · exact hinv.openReach e (popBest_sub entryCmp opn x opn1 hp e hold)
    · rw [hg, htent]
      exact ReachN_snoc P x.g_cost start x.state e.state hxreach hm
  · intro e he
    rcases relaxSuccs_open_cases P x.state x.g_cost _ _ e he with hold | ⟨hm, hg, _⟩
    · obtain ⟨w, hw, hwle⟩ := hinv.openBind e (popBest_sub entryCmp opn x opn1 hp e hold)
      obtain ⟨w', hw', hwle'⟩ :=
        relaxSuccs_lookup_mono hbeq P x.state x.g_cost (P.successors x.state) (opn1, came)
          e.state w hw
      exact ⟨w', hw', by omega⟩
    · obtain ⟨w', hw', hwle'⟩ :=
        relaxSuccs_mem_succ hbeq P x.state x.g_cost (P.successors x.state) (opn1, came)
          e.state hm
      exact ⟨w', hw', by rw [hg]; exact hwle'⟩
  · intro e he
    rcases relaxSuccs_open_cases P x.state x.g_cost _ _ e he with hold | ⟨_, _, hh⟩
    · exact hinv.openH e (popBest_sub entryCmp opn x opn1 hp e hold)
    · exact hh
  · intro e he
    rcases relaxSuccs_open_cases P x.state x.g_cost _ _ e he with hold | ⟨_, hg, _⟩
    · exact Nat.le_succ_of_le (hinv.openGle e (popBest_sub entryCmp opn x opn1 hp e hold))
    · rw [hg, htent]
      omega
  · exact relaxSuccs_glt hbeq P x.state x.g_cost (P.successors x.state) (opn1, came)
      hinv.cameGlt
      (by show Nat.min (x.g_cost + 1) u32Max ≤ came.length; rw [htent]; omega)

theorem optInv_expand {S : Type} [DecidableEq S] {beq : S → S → Bool}
    (hbeq : ∀ a b, beq a b = true ↔ a = b) {P : SearchProb S} {start : S} {n : Nat}
    {v : Nat → S} (hv : OptPath P start n v) (hmin : ∀ m, m < n → ¬ GoalIn P m start)
    {E : Nat} {opn opn1 : List (FrontierEntry S)} {came : Came S} {trace : List (S × Nat)}
    {x : FrontierEntry S}
    (hinv : AInv beq P start E opn came)
    (hinv2 : AInv beq P start (E + 1)
      (relaxSuccs beq P x.state x.g_cost (P.successors x.state) (opn1, came)).1
      (relaxSuccs beq P x.state x.g_cost (P.successors x.state) (opn1, came)).2)
    (hoi : OptInv beq P n v opn came trace)
    (hp : popBest entryCmp opn = some (x, opn1))
    (hsat : x.g_cost + 1 ≤ u32Max)
    (hgoalx : P.isGoal x.state = false) :
    OptInv beq P n v
      (relaxSuccs beq P x.state x.g_cost (P.successors x.state) (opn1, came)).1
      (relaxSuccs beq P x.state x.g_cost (P.successors x.state) (opn1, came)).2
      (trace ++ [(x.state, x.g_cost)]) := by
  have htent : Nat.min (x.g_cost + 1) u32Max = x.g_cost + 1 := Nat.min_eq_left hsat
  refine ⟨?_, ?_, ?_⟩
  · -- covered
    intro j hj hval
    rcases hl : lookupB beq
        (relaxSuccs beq P x.state x.g_cost (P.successors x.state) (opn1, came)).2 (v j) with
      _ | w'
    · rw [hl] at hval
      exact absurd hval (by simp)
    · rw [hl] at hval
      have hw'j : w'.2 = j := by
        simp only [Option.map_some'] at hval
        injection hval
      rcases relaxSuccs_lookup_cases hbeq P x.state x.g_cost _ _ (v j) w' hl with
        hold | ⟨_, hvalw, hent⟩
      · have hcov := hoi.covered j hj (by rw [hold, Option.map_some', hw'j])
        rcases hcov with ⟨e0, he0, hst0, hg0⟩ | htr
        · rcases List.mem_cons.mp ((popBest_perm entryCmp opn x opn1 hp).subset he0) with
            rfl | hin1
          · refine Or.inr (List.mem_append_right _ ?_)
            rw [← hst0, ← hg0]
            exact List.mem_singleton_self _
          · exact Or.inl ⟨e0, relaxSuccs_open_mono P x.state x.g_cost _ _ e0 hin1, hst0, hg0⟩
        · exact Or.inr (List.mem_append_left _ htr)
      · refine Or.inl ⟨⟨v j, Nat.min (x.g_cost + 1) u32Max, P.heuristic (v j)⟩, hent, rfl, ?_⟩
        rw [← hw'j, hvalw]
  · -- afterTrace
    intro j hjn htr'
    have hj1 : j + 1 ≤ n := hjn
    rcases List.mem_append.mp htr' with htold | htnew
    · have hold := hoi.afterTrace j hjn htold
      rcases hl : lookupB beq came (v (j + 1)) with _ | wj
      · rw [hl] at hold
        exact absurd hold (by simp)
      · rw [hl] at hold
        have hwj : wj.2 = j + 1 := by
          simp only [Option.map_some'] at hold
          injection hold
        obtain ⟨w'', hw'', hle⟩ :=
          relaxSuccs_lookup_mono hbeq P x.state x.g_cost (P.successors x.state) (opn1, came)
            (v (j + 1)) wj hl
        have hge : j + 1 ≤ w''.2 := optPath_value_lb hv hmin (j + 1) hj1 w''.2
          (hinv2.cameReach (v (j + 1)) w'' hw'')
        rw [hw'', Option.map_some']
        congr 1
        omega
    · have heqp : (v j, j) = (x.state, x.g_cost) := by simpa using htnew
      have h1 : v j = x.state := congrArg Prod.fst heqp
      have h2 : j = x.g_cost := congrArg Prod.snd heqp
      have hstep : v (j + 1) ∈ P.successors x.state := by
        rw [← h1]
        exact hv.step j hjn
      obtain ⟨w'', hw'', hle⟩ :=
        relaxSuccs_mem_succ hbeq P x.state x.g_cost (P.successors x.state) (opn1, came)
          (v (j + 1)) hstep
      have hge : j + 1 ≤ w''.2 := optPath_value_lb hv hmin (j + 1) hj1 w''.2
        (hinv2.cameReach (v (j + 1)) w'' hw'')
      rw [htent, ← h2] at hle
      rw [hw'', Option.map_some']
      congr 1
      omega
  · -- noGoalTrace
    intro t ht
    rcases List.mem_append.mp ht with htold | htnew
    · exact hoi.noGoalTrace t htold
    · obtain rfl : t = (x.state, x.g_cost) := by simpa using htnew
      exact hgoalx

theorem optInv_pop_stale {S : Type} {beq : S → S → Bool} {P : SearchProb S} {n : Nat}
    {v : Nat → S} {opn opn1 : List (FrontierEntry S)} {came : Came S} {trace : List (S × Nat)}
    {x : FrontierEntry S}
    (hoi : OptInv beq P n v opn came trace)
    (hp : popBest entryCmp opn = some (x, opn1))
    (hstale : ((lookupB beq came x.state).getD (none, u32Max)).2 < x.g_cost) :
    OptInv beq P n v opn1 came trace := by
  refine ⟨?_, hoi.afterTrace, hoi.noGoalTrace⟩
  intro j hj hval
  rcases hoi.covered j hj hval with ⟨e0, he0, hst0, hg0⟩ | htr
  · rcases List.mem_cons.mp ((popBest_perm entryCmp opn x opn1 hp).subset he0) with rfl | hin1
    · exfalso
      rcases hl : lookupB beq came (v j) with _ | w
      · rw [hl] at hval
        exact absurd hval (by simp)
      · rw [hl] at hval
        have hw : w.2 = j := by
          simp only [Option.map_some'] at hval
          injection hval
        rw [hst0, hl] at hstale
        simp only [Option.getD_some] at hstale
        omega
    · exact Or.inl ⟨e0, hin1, hst0, hg0⟩
  · exact Or.inr htr

/-! ### The main optimality induction -/

theorem astarLoopE_optimal {S : Type} [DecidableEq S] {beq : S → S → Bool}
    (hbeq : ∀ a b, beq a b = true ↔ a = b) {P : SearchProb S}
    (elapsed : Nat → Nat) (hnt : ∀ k, elapsed k < 3600)
    (hMax fuel0 : Nat) (hH : ∀ s, P.heuristic s ≤ hMax)
    (hbound : fuel0 + hMax + 1 < u32Mod) (hadm : Admissible P)
    {start : S} {n : Nat} {v : Nat → S} (hv : OptPath P start n v)
    (hmin : ∀ m, m < n → ¬ GoalIn P m start) :
    ∀ (fuel : Nat) (opn : List (FrontierEntry S)) (came : Came S) (trace : List (S × Nat))
      (expanded k : Nat) (r : SearchReport S) (l : List (S × Nat)),
      AInv beq P start expanded opn came →
      OptInv beq P n v opn came trace →
      expanded + fuel ≤ fuel0 →
      astarLoopE beq P elapsed fuel opn came trace expanded k = some (r, l) →
      r.goal_found = true ∧ r.path.length = n + 1 := by
  intro fuel
  induction fuel with
  | zero =>
    intro opn came trace expanded k r l _ _ _ hrun
    exact absurd hrun (by simp [astarLoopE])
  | succ fuel ih =>
    intro opn came trace expanded k r l hinv hoi hexp hrun
    have hgoaln : P.isGoal (v n) = true := by
      have hs := hv.suffix n (Nat.le_refl n)
      rw [Nat.sub_self] at hs
      exact hs
    have hbase : (lookupB beq came (v 0)).map (fun w => w.2) = some 0 := by
      rw [hv.base, hinv.startBind]
      rfl
    rw [astarLoopE] at hrun
    rcases hp : popBest entryCmp opn with _ | ⟨x, opn1⟩
    · exfalso
      obtain ⟨j, hj, e, he, _, _⟩ := exists_good hoi hgoaln hbase
      rw [popBest_eq_none _ _ hp] at he
      exact absurd he (List.not_mem_nil _)
    · simp only [hp] at hrun
      rw [if_neg (Nat.not_le.mpr (hnt k))] at hrun
      by_cases hst : ((lookupB beq came x.state).getD (none, u32Max)).2 < x.g_cost
      · rw [if_pos hst] at hrun
        refine ih opn1 came trace expanded (k + 1) r l
          ⟨hinv.startBind, hinv.rootOnly, hinv.parentStep, hinv.cameReach,
            fun e he => hinv.openReach e (popBest_sub _ _ _ _ hp e he),
            fun e he => hinv.openBind e (popBest_sub _ _ _ _ hp e he),
            fun e he => hinv.openH e (popBest_sub _ _ _ _ hp e he),
            fun e he => hinv.openGle e (popBest_sub _ _ _ _ hp e he),
            hinv.cameGlt⟩
          (optInv_pop_stale hoi hp hst) (by omega) hrun
      · rw [if_neg hst] at hrun
        have hxmem : x ∈ opn := popBest_mem _ _ _ _ hp
        obtain ⟨w0, hw0, hw0le⟩ := hinv.openBind x hxmem
        have hw0eq : w0.2 = x.g_cost := by
          have hnl : ¬ w0.2 < x.g_cost := fun hlt => hst (by rw [hw0]; exact hlt)
          omega
        have hxE : x.g_cost ≤ expanded := hinv.openGle x hxmem
        by_cases hg : P.isGoal x.state = true
        · rw [if_pos hg] at hrun
          obtain ⟨rfl, rfl⟩ := hrun
          have hreach : ReachN P w0.2 start x.state := hinv.cameReach x.state w0 hw0
          have hgoalrun : GoalIn P w0.2 start := by
            have hc := GoalIn_compose P w0.2 start x.state 0 hreach hg
            rw [Nat.add_zero] at hc
            exact hc
          have hlow : n ≤ w0.2 := by
            by_contra hcon
            push_neg at hcon
            exact hmin w0.2 hcon hgoalrun
          obtain ⟨j, hj, ent, hentm, hents, hentg⟩ := exists_good hoi hgoaln hbase
          have hkey := popBest_min opn x opn1 hp ent hentm
          have hfx : fCost x = x.g_cost + x.h_cost := Nat.mod_eq_of_lt (by
            have h1 : x.h_cost ≤ hMax := by
              rw [hinv.openH x hxmem]
              exact hH x.state
            omega)
          have hfent : fCost ent = ent.g_cost + ent.h_cost := Nat.mod_eq_of_lt (by
            have h1 : ent.h_cost ≤ hMax := by
              rw [hinv.openH ent hentm]
              exact hH ent.state
            have h2 : ent.g_cost ≤ expanded := hinv.openGle ent hentm
            omega)
          have hhv : P.heuristic (v j) ≤ n - j := hadm (v j) (n - j) (hv.suffix j hj)
          have hup : x.g_cost ≤ n := by
            have hente : ent.h_cost = P.heuristic (v j) := by
              rw [hinv.openH ent hentm, hents]
            have hflex : fCost x ≤ fCost ent := by
              rcases hkey with hlt | ⟨heq, _⟩
              · exact Nat.le_of_lt hlt
              · omega
            rw [hfx, hfent, hentg, hente] at hflex
            omega
          have hgn : w0.2 = n := by omega
          obtain ⟨t, hteq, hchain, htlen⟩ := reconSteps_spec P start came hinv.rootOnly
            hinv.parentStep came.length x.state w0 hw0 (hinv.cameGlt x.state w0 hw0)
          have hlenreach := backChain_reach P start t x.state hchain
          have hgoallen : GoalIn P ((x.state :: t).length - 1) start := by
            have hc := GoalIn_compose P _ start x.state 0 hlenreach hg
            rw [Nat.add_zero] at hc
            exact hc
          have hlen_lb : n ≤ (x.state :: t).length - 1 := by
            by_contra hcon
            push_neg at hcon
            exact hmin _ hcon hgoallen
          refine ⟨rfl, ?_⟩
          show (reconstruct_path beq came x.state).length = n + 1
          rw [reconstruct_path, hteq, List.length_reverse]
          have hub : (x.state :: t).length ≤ n + 1 := by omega
          have hne : 1 ≤ (x.state :: t).length := by simp
          omega
        · rw [if_neg hg] at hrun
          have hmm : u32Mod = u32Max + 1 := by decide
          have hsat : x.g_cost + 1 ≤ u32Max := by omega
          have hgfalse : P.isGoal x.state = false := by
            rcases hg2 : P.isGoal x.state with _ | _
            · rfl
            · exact absurd hg2 hg
          have hinv2 := aInv_expand hbeq hinv hp hst hsat
          have hoi2 := optInv_expand hbeq hv hmin hinv hinv2 hoi hp hsat hgfalse
          exact ih _ _ _ (expanded + 1) (k + 1) r l hinv2 hoi2 (by omega) hrun

/-- Claim C1: for every start state whose heuristic is admissible (and
bounded, with enough fuel below the `u32` range and a clock under the
one-hour ceiling), when the engine's run completes it returns a found path
whose number of states equals the true shortest-path length under unit
edge costs as computed by the reference breadth-first search. -/
theorem astar_optimal_path_length {S : Type} [DecidableEq S] (beq : S → S → Bool)
    (P : SearchProb S) (elapsed : Nat → Nat) (fuel hMax bfsFuel : Nat) (start : S)
    (r : SearchReport S) (len : Nat)
    (hbeq : ∀ a b, beq a b = true ↔ a = b)
    (hnt : ∀ k, elapsed k < 3600)
    (hH : ∀ s, P.heuristic s ≤ hMax)
    (hbound : fuel + hMax + 1 < u32Mod)
    (hadm : Admissible P)
    (hrun : astar beq P elapsed fuel start = some r)
    (hbfs : bfsPathStates P start bfsFuel = some len) :
    r.goal_found = true ∧ r.path.length = len := by
  obtain ⟨n, hsearch, rfl⟩ : ∃ n, bfsSearch P start 0 bfsFuel = some n ∧ len = n + 1 := by
    rw [bfsPathStates] at hbfs
    rcases hb : bfsSearch P start 0 bfsFuel with _ | n
    · rw [hb] at hbfs
      exact absurd hbfs (by simp)
    · rw [hb] at hbfs
      simp only [Option.map_some'] at hbfs
      have : n + 1 = len := by injection hbfs
      exact ⟨n, rfl, this.symm⟩
  obtain ⟨_, hgoal, hminall⟩ := bfsSearch_spec P start bfsFuel 0 n hsearch
  have hmin : ∀ m, m < n → ¬ GoalIn P m start := fun m hm => hminall m (Nat.zero_le m) hm
  obtain ⟨v, hv⟩ := exists_opt_path P n start hgoal
  obtain ⟨l, hErun⟩ : ∃ l, astarE beq P elapsed fuel start = some (r, l) := by
    have hproj := @astar_eq_projE S beq P elapsed fuel start
    rw [hrun] at hproj
    rcases he : astarE beq P elapsed fuel start with _ | pr
    · rw [he] at hproj
      exact absurd hproj (by simp)
    · rw [he] at hproj
      obtain ⟨r2, l⟩ := pr
      simp only [Option.map_some'] at hproj
      obtain rfl : r = r2 := by injection hproj
      exact ⟨l, rfl⟩
  have hlook : ∀ t : S, lookupB beq (insertB beq [] start (none, 0)) t =
      if start = t then some (none, 0) else none := by
    intro t
    rw [lookupB_insertB hbeq]
    by_cases hstt : start = t
    · rw [if_pos hstt, if_pos hstt]
    · rw [if_neg hstt, if_neg hstt]
      rfl
  refine astarLoopE_optimal hbeq elapsed hnt hMax fuel hH hbound hadm hv hmin fuel
    [⟨start, 0, P.heuristic start⟩] (insertB beq [] start (none, 0)) [] 0 0 r l ?_ ?_
    (by omega) hErun
  · refine ⟨?_, ?_, ?_, ?_, ?_, ?_, ?_, ?_, ?_⟩
    · rw [hlook, if_pos rfl]
    · intro s g hs
      rw [hlook] at hs
      by_cases hstt : start = s
      · rw [if_pos hstt] at hs
        have hval : (none, (0 : Nat)) = ((none : Option S), g) := by injection hs
        exact ⟨hstt.symm, (congrArg Prod.snd hval).symm⟩
      · rw [if_neg hstt] at hs
        exact absurd hs (by simp)
    · intro s p g hs
      rw [hlook] at hs
      by_cases hstt : start = s
      · rw [if_pos hstt] at hs
        have hval : ((none : Option S), (0 : Nat)) = (some p, g) := by injection hs
        exact absurd (congrArg Prod.fst hval) (by simp)
      · rw [if_neg hstt] at hs
        exact absurd hs (by simp)
    · intro s w hs
      rw [hlook] at hs
      by_cases hstt : start = s
      · rw [if_pos hstt] at hs
        have hval : ((none : Option S), (0 : Nat)) = w := by injection hs
        rw [← hstt, ← hval]
        exact rfl
      · rw [if_neg hstt] at hs
        exact absurd hs (by simp)
    · intro e he
      obtain rfl : e = ⟨start, 0, P.heuristic start⟩ := by simpa using he
      exact rfl
    · intro e he
      obtain rfl : e = ⟨start, 0, P.heuristic start⟩ := by simpa using he
      refine ⟨(none, 0), ?_, Nat.le_refl _⟩
      rw [hlook, if_pos rfl]
    · intro e he
      obtain rfl : e = ⟨start, 0, P.heuristic start⟩ := by simpa using he
      rfl
    · intro e he
      obtain rfl : e = ⟨start, 0, P.heuristic start⟩ := by simpa using he
      exact Nat.le_refl _
    · intro s w hs
      rw [hlook] at hs
      by_cases hstt : start = s
      · rw [if_pos hstt] at hs
        have hval : ((none : Option S), (0 : Nat)) = w := by injection hs
        rw [← hval]
        show 0 < (insertB beq [] start (none, 0)).length
        show 0 < ([(start, ((none : Option S), (0 : Nat)))]).length
        simp
      · rw [if_neg hstt] at hs
        exact absurd hs (by simp)
  · refine ⟨?_, ?_, ?_⟩
    · intro j hj hval
      rw [hlook] at hval
      by_cases hstt : start = v j
      · rw [if_pos hstt] at hval
        simp only [Option.map_some'] at hval
        have hj0 : (0 : Nat) = j := by injection hval
        exact Or.inl ⟨⟨start, 0, P.heuristic start⟩, List.mem_cons_self _ _, hstt, hj0⟩
      · rw [if_neg hstt] at hval
        exact absurd hval (by simp)
    · intro j _ htr
      exact absurd htr (List.not_mem_nil _)
    · intro t ht
      exact absurd ht (List.not_mem_nil _)

theorem astar_optimal_path_length_witness :
    ((⟨[false, true], 1, 2, true, 0⟩ : SearchReport Bool).goal_found = true ∧
      (⟨[false, true], 1, 2, true, 0⟩ : SearchReport Bool).path.length = 2) :=
  astar_optimal_path_length boolBeq stepProb (fun _ => 0) 5 0 5 false
    ⟨[false, true], 1, 2, true, 0⟩ 2
    (fun a b => by cases a <;> cases b <;> simp [boolBeq])
    (fun _ => of_decide_eq_true rfl)
    (fun _ => Nat.le_refl 0)
    (by decide)
    (fun _ n _ => Nat.zero_le n)
    (by rfl)
    (by rfl)
